import Mathlib

/-!
Shallow embedding of the Lucene50 `ForUtil` block codec from
`src/core/codec/lucene50/util.rs` of the rucene repository, together with
proofs of the specified properties.

Conventions of the embedding:
* Rust `i32` values handled by the codec are represented by their unsigned
  bit pattern, a `Nat` strictly below `2 ^ 32`; byte buffers are `List Nat`
  with entries below `2 ^ 8`.
* Fallible operations return `Except Err α`.  `Err.invariantViolation`
  models a Rust panic (a failed release-mode `assert!` or an out-of-bounds
  slice/`Vec` index); `debug_assert!` calls are compiled out in release
  builds and are not modelled.
* The byte-stream abstractions, the variable-length integer routine, and
  the packed-integer catalog (`packed_misc`) are collaborators of this file
  that are not under `src/`; they are modelled from the spec, and each such
  definition carries a doc comment starting with `Modelled from the spec:`.
-/

set_option maxRecDepth 10000
set_option linter.unusedVariables false

namespace Rucene

/-- Decidable equality for `Except` results, used to evaluate concrete runs
of the codec inside proofs. -/
instance {ε α : Type} [DecidableEq ε] [DecidableEq α] : DecidableEq (Except ε α) := fun x y =>
  match x, y with
  | .ok a, .ok b =>
      if h : a = b then .isTrue (by rw [h])
      else .isFalse (by intro hc; cases hc; exact h rfl)
  | .error a, .error b =>
      if h : a = b then .isTrue (by rw [h])
      else .isFalse (by intro hc; cases hc; exact h rfl)
  | .ok _, .error _ => .isFalse (by intro hc; cases hc)
  | .error _, .ok _ => .isFalse (by intro hc; cases hc)

/-- Block length B: the fixed number of logical integer slots per block
(`BLOCK_SIZE` from `posting_format`; the spec fixes B = 128). -/
def BLOCK_SIZE : Nat := 128

/-- Special number of bits per value used whenever all values to encode are equal. -/
def ALL_VALUES_EQUAL : Nat := 0

/-- Upper limit of the number of bytes that might be required to store
`BLOCK_SIZE` encoded values. -/
def MAX_ENCODED_SIZE : Nat := BLOCK_SIZE * 4

/-- Error outcomes of the codec.  The first four model recoverable `Result`
errors (the spec's taxonomy); `invariantViolation` models a Rust panic. -/
inductive Err where
  | unsupportedVersion
  | unknownFormat
  | unsupportedLayout
  | ioFailure
  | invariantViolation
deriving DecidableEq

/-- Modelled from the spec: a readable, seekable byte source (`IndexInput`),
a byte list together with the current position. -/
structure ByteStream where
  data : List Nat
  pos : Nat
deriving DecidableEq

/-- Modelled from the spec: the little-endian base-128 byte encoding of an
unsigned value, as produced by `DataOutput::write_vint` (each byte holds 7
payload bits; the high bit marks a continuation byte). -/
def vintBytes (n : Nat) : List Nat :=
  if h : n < 128 then [n]
  else (n % 128 + 128) :: vintBytes (n / 128)
decreasing_by exact Nat.div_lt_self (by omega) (by omega)

/-- Modelled from the spec: reading one variable-length integer from the
front of a byte list, returning the value and the number of bytes consumed. -/
def readVIntFrom : List Nat → Option (Nat × Nat)
  | [] => none
  | b :: rest =>
    if b < 128 then some (b, 1)
    else
      match readVIntFrom rest with
      | some (v, k) => some (b % 128 + 128 * v, k + 1)
      | none => none

/-- Modelled from the spec: `IndexInput::read_byte`. -/
def ByteStream.read_byte (s : ByteStream) : Option (Nat × ByteStream) :=
  match s.data[s.pos]? with
  | some b => some (b, ⟨s.data, s.pos + 1⟩)
  | none => none

/-- Modelled from the spec: `IndexInput::read_vint`. -/
def ByteStream.read_vint (s : ByteStream) : Option (Nat × ByteStream) :=
  match readVIntFrom (s.data.drop s.pos) with
  | some (v, k) => some (v, ⟨s.data, s.pos + k⟩)
  | none => none

/-- Modelled from the spec: `IndexInput::read_exact`, reading exactly `k`
bytes. -/
def ByteStream.read_exact (s : ByteStream) (k : Nat) : Option (List Nat × ByteStream) :=
  if s.pos + k ≤ s.data.length then some ((s.data.drop s.pos).take k, ⟨s.data, s.pos + k⟩)
  else none

/-- Modelled from the spec: `IndexInput::file_pointer`, the current position. -/
def ByteStream.file_pointer (s : ByteStream) : Nat := s.pos

/-- Modelled from the spec: `IndexInput::seek` to an absolute position. -/
def ByteStream.seek (s : ByteStream) (p : Nat) : ByteStream := ⟨s.data, p⟩

/-- The closed set of on-disk layout families. -/
inductive Format where
  | packed
  | packedSingleBlock
deriving DecidableEq

/-- Modelled from the spec: `Format::get_id` (Packed = 0, PackedSingleBlock = 1). -/
def Format.get_id : Format → Nat
  | .packed => 0
  | .packedSingleBlock => 1

/-- Modelled from the spec: `Format::with_id` of the packed-ints catalog
resolves the format family by id.  Its call site (`with_input`, util.rs:85)
applies no `?` operator to the result and passes it directly as a bare
`Format` to `encoded_size` and `get_decoder`, which pins the real return
type to `Format`: an id outside {Packed, PackedSingleBlock} cannot surface
as a recoverable error value and can only panic.  As everywhere in this
development, a panic is modelled as `invariantViolation` carried on the
`Except` channel. -/
def Format.with_id (id : Nat) : Except Err Format :=
  if id = 0 then .ok .packed
  else if id = 1 then .ok .packedSingleBlock
  else .error .invariantViolation

/-- Modelled from the spec: whether a bits-per-value is representable in the
family.  Packed packs any width up to 64 bits; PackedSingleBlock must fit the
value inside one 64-bit word (the codec only ever uses widths up to 32). -/
def Format.is_supported (f : Format) (bits_per_value : Nat) : Bool :=
  match f with
  | .packed => decide (1 ≤ bits_per_value) && decide (bits_per_value ≤ 64)
  | .packedSingleBlock => decide (1 ≤ bits_per_value) && decide (bits_per_value ≤ 32)

/-- Modelled from the spec: `Format::byte_count`, the number of bytes a block
of `value_count` values occupies.  Packed packs values densely across byte
boundaries; PackedSingleBlock aligns `64 / bits` values in each single 64-bit
word.  The version argument does not change the count in this model. -/
def Format.byte_count (f : Format) (version : Nat) (value_count : Nat) (bits_per_value : Nat) : Nat :=
  match f with
  | .packed => (value_count * bits_per_value + 7) / 8
  | .packedSingleBlock =>
      8 * ((value_count + (64 / bits_per_value) - 1) / (64 / bits_per_value))

/-- The catalog's verdict for one nominal bits-per-value: the chosen family
and the bits-per-value actually used by the chosen layout. -/
structure FormatAndBits where
  format : Format
  bits_per_value : Nat
deriving DecidableEq

/-- A packed-integer bulk encoder/decoder object, determined by its format
family and bits-per-value (`PackedIntDecoder` / `PackedIntEncoder`). -/
structure BulkOp where
  format : Format
  bits_per_value : Nat
deriving DecidableEq

/-- Modelled from the spec: the number of values consumed or produced per
encode/decode iteration (`byte_value_count`). -/
def BulkOp.byte_value_count (op : BulkOp) : Nat :=
  match op.format with
  | .packed => 8 / Nat.gcd op.bits_per_value 8
  | .packedSingleBlock => 64 / op.bits_per_value

/-- Modelled from the spec: the number of bytes consumed or produced per
encode/decode iteration (`byte_block_count`). -/
def BulkOp.byte_block_count (op : BulkOp) : Nat :=
  match op.format with
  | .packed => op.bits_per_value / Nat.gcd op.bits_per_value 8
  | .packedSingleBlock => 8

/-- Little-endian bit expansion of `n`, width `w`. -/
def toBitsLE : Nat → Nat → List Bool
  | 0, _ => []
  | w + 1, n => (n % 2 == 1) :: toBitsLE w (n / 2)

/-- The value of a little-endian bit list. -/
def ofBitsLE : List Bool → Nat
  | [] => 0
  | b :: bs => (if b then 1 else 0) + 2 * ofBitsLE bs

/-- Groups a bit stream into `count` bytes (8 bits each, little-endian). -/
def bitsToBytesN : Nat → List Bool → List Nat
  | 0, _ => []
  | k + 1, s => ofBitsLE (s.take 8) :: bitsToBytesN k (s.drop 8)

/-- The bit stream of a byte list (8 little-endian bits per byte). -/
def bytesToBits (bytes : List Nat) : List Bool :=
  bytes.flatMap (toBitsLE 8)

/-- Reads `count` packed values of width `bits` from the front of a bit
stream. -/
def bitsToValsN (bits : Nat) : Nat → List Bool → List Nat
  | 0, _ => []
  | k + 1, s => ofBitsLE (s.take bits) :: bitsToValsN bits k (s.drop bits)

/-- Modelled from the spec: one encoder iteration packs `byte_value_count`
values of width `bits_per_value` into `byte_block_count` bytes (PackedSingleBlock
pads the tail of its 64-bit word with zero bits). -/
def BulkOp.encodeIter (op : BulkOp) (vals : List Nat) : List Nat :=
  bitsToBytesN op.byte_block_count
    (vals.flatMap (toBitsLE op.bits_per_value) ++
      List.replicate (op.byte_block_count * 8 - (vals.flatMap (toBitsLE op.bits_per_value)).length) false)

/-- Modelled from the spec: one decoder iteration unpacks `byte_value_count`
values of width `bits_per_value` from `byte_block_count` bytes. -/
def BulkOp.decodeIter (op : BulkOp) (bytes : List Nat) : List Nat :=
  bitsToValsN op.bits_per_value op.byte_value_count (bytesToBits bytes)

/-- Modelled from the spec: `iterations` encoder iterations, each consuming
`byte_value_count` values and producing `byte_block_count` bytes. -/
def BulkOp.encodeIters (op : BulkOp) : Nat → List Nat → List Nat
  | 0, _ => []
  | k + 1, data =>
      op.encodeIter (data.take op.byte_value_count) ++ op.encodeIters k (data.drop op.byte_value_count)

/-- Modelled from the spec: `iterations` decoder iterations, each consuming
`byte_block_count` bytes and producing `byte_value_count` values. -/
def BulkOp.decodeIters (op : BulkOp) : Nat → List Nat → List Nat
  | 0, _ => []
  | k + 1, bytes =>
      op.decodeIter (bytes.take op.byte_block_count) ++ op.decodeIters k (bytes.drop op.byte_block_count)

/-- Modelled from the spec: `PackedIntEncoder::encode_int_to_byte`. -/
def BulkOp.encode_int_to_byte (op : BulkOp) (data : List Nat) (iterations : Nat) : List Nat :=
  op.encodeIters iterations data

/-- Modelled from the spec: `PackedIntDecoder::decode_byte_to_int`; the
decoded values overwrite the front of the caller's `decoded` buffer. -/
def BulkOp.decode_byte_to_int (op : BulkOp) (encoded : List Nat) (decoded : List Nat) (iterations : Nat) : List Nat :=
  op.decodeIters iterations encoded ++ decoded.drop (op.decodeIters iterations encoded).length

/-- Modelled from the spec: the packed-ints protocol version range
(`VERSION_START`). -/
def VERSION_START : Nat := 0

/-- Modelled from the spec: the current packed-ints protocol version
(`VERSION_CURRENT`). -/
def VERSION_CURRENT : Nat := 2

/-- Modelled from the spec: `check_version` validates a version tag against
the supported range and fails with `UnsupportedVersion` outside it. -/
def check_version (version : Nat) : Except Err Unit :=
  if VERSION_START ≤ version ∧ version ≤ VERSION_CURRENT then .ok ()
  else .error .unsupportedVersion

/-- Modelled from the spec: `get_decoder` resolves the decoder of a
(family, version, bits-per-value) combination from the closed catalog, and
fails when the combination is outside the catalog. -/
def get_decoder (format : Format) (version : Nat) (bits_per_value : Nat) : Except Err BulkOp :=
  if version ≤ VERSION_CURRENT ∧ 1 ≤ bits_per_value ∧ bits_per_value ≤ 32 then
    .ok ⟨format, bits_per_value⟩
  else .error .unsupportedLayout

/-- Modelled from the spec: `get_encoder`, the encoder counterpart of
`get_decoder`. -/
def get_encoder (format : Format) (version : Nat) (bits_per_value : Nat) : Except Err BulkOp :=
  if version ≤ VERSION_CURRENT ∧ 1 ≤ bits_per_value ∧ bits_per_value ≤ 32 then
    .ok ⟨format, bits_per_value⟩
  else .error .unsupportedLayout

/-- `compute_iterations`: the number of decoder iterations needed to cover one
block, `ceil(BLOCK_SIZE / byte_value_count)`.  The source computes the ceiling
with `f32` arithmetic, which is exact on this range (128 / v with 1 ≤ v ≤ 64
is always at least 1/64 away from any other integer, far above `f32` rounding
error), so it is modelled as exact ceiling division on `Nat`. -/
def compute_iterations (decoder : BulkOp) : Nat :=
  (BLOCK_SIZE + decoder.byte_value_count - 1) / decoder.byte_value_count

/-- `encoded_size`: the byte length of one full block at the given format,
version and bits-per-value. -/
def encoded_size (format : Format) (version : Nat) (bits_per_value : Nat) : Nat :=
  format.byte_count version BLOCK_SIZE bits_per_value

/-- One step of the `max_data_size` scan.  The source `assert!`s that the
decoder resolves; the error branch is unreachable for the scanned range. -/
def maxDataSizeStep (version : Nat) (format : Format) (bpv : Nat) : Nat :=
  match get_decoder format version bpv with
  | .ok decoder => compute_iterations decoder * decoder.byte_value_count
  | .error _ => 0

/-- `max_data_size`: the maximum, over every supported protocol version, both
format families and every bits-per-value in [1,32], of
`iterations * byte_value_count`.  The source computes this lazily behind a
`Once`; the model is the resulting pure constant. -/
def max_data_size : Nat :=
  ((List.range' VERSION_START (VERSION_CURRENT + 1 - VERSION_START)).flatMap fun version =>
    [Format.packed, Format.packedSingleBlock].flatMap fun format =>
      (List.range' 1 32).map fun bpv => maxDataSizeStep version format bpv).foldl max 0

/-- The Format Table (`ForUtilInstance`): per-bits-per-value encoded sizes,
decoder and encoder objects, and iteration counts, each indexed 1..32 in a
33-slot sequence (slot 0 unused). -/
structure ForUtilInstance where
  encoded_sizes : List Nat
  decoders : List BulkOp
  encoders : List BulkOp
  iterations : List Nat
deriving DecidableEq

/-- Accumulator of the `with_input` construction loop. -/
structure InAcc where
  sizes : List Nat
  decs : List BulkOp
  iters : List Nat
deriving DecidableEq

/-- The per-bits-per-value loop of `ForUtilInstance::with_input`: reads one
format code, splits it into family id and bits-per-value, resolves the format
and its decoder, and records encoded size and iteration count.  The source
pushes the bpv = 1 decoder twice so that slot indices align with bits-per-value;
after the pushes `decoders[bpv]` is the decoder just resolved, so
`iterations[bpv]` is computed from it directly.  The error branch after
`Format.with_id` is that function's panic (`invariantViolation`, see its doc)
unwinding out of the loop, not a recoverable-error check of the source loop,
which uses the resolved format directly. -/
def withInputLoop (version : Nat) : List Nat → ByteStream → InAcc → Except Err (InAcc × ByteStream)
  | [], s, acc => .ok (acc, s)
  | bpv :: rest, s, acc =>
    match s.read_vint with
    | none => .error .ioFailure
    | some (code, s₁) =>
      match Format.with_id (code >>> 5) with
      | .error e => .error e
      | .ok format =>
        match get_decoder format version ((code &&& 31) + 1) with
        | .error e => .error e
        | .ok decoder =>
          withInputLoop version rest s₁
            ⟨acc.sizes ++ [encoded_size format version ((code &&& 31) + 1)],
             (if bpv = 1 then acc.decs ++ [decoder, decoder] else acc.decs ++ [decoder]),
             acc.iters ++ [compute_iterations decoder]⟩

/-- `ForUtilInstance::with_input`: reads the persisted header (version tag,
then one format code per bits-per-value 1..32) and reconstructs the Format
Table.  No encoders are built on this path. -/
def ForUtilInstance.with_input (input : ByteStream) : Except Err (ForUtilInstance × ByteStream) :=
  match input.read_vint with
  | none => .error .ioFailure
  | some (packed_ints_version, s₁) =>
    match check_version packed_ints_version with
    | .error e => .error e
    | .ok _ =>
      match withInputLoop packed_ints_version (List.range' 1 32) s₁ ⟨[], [], []⟩ with
      | .error e => .error e
      | .ok (acc, s₂) => .ok (⟨0 :: acc.sizes, acc.decs, [], 0 :: acc.iters⟩, s₂)

/-- Accumulator of the `with_output` construction loop. -/
structure OutAcc where
  sizes : List Nat
  encs : List BulkOp
  decs : List BulkOp
  iters : List Nat
  out : List Nat
deriving DecidableEq

/-- The per-bits-per-value loop of `ForUtilInstance::with_output`: takes the
catalog's verdict for this bits-per-value, resolves encoder and decoder,
records encoded size and iteration count, and serializes the format choice as
one code.  As on the input path, the bpv = 1 objects are pushed twice. -/
def withOutputLoop (choice : Nat → FormatAndBits) : List Nat → OutAcc → Except Err OutAcc
  | [], acc => .ok acc
  | bpv :: rest, acc =>
    match get_encoder (choice bpv).format VERSION_CURRENT (choice bpv).bits_per_value with
    | .error e => .error e
    | .ok encoder =>
      match get_decoder (choice bpv).format VERSION_CURRENT (choice bpv).bits_per_value with
      | .error e => .error e
      | .ok decoder =>
        withOutputLoop choice rest
          ⟨acc.sizes ++ [encoded_size (choice bpv).format VERSION_CURRENT (choice bpv).bits_per_value],
           (if bpv = 1 then acc.encs ++ [encoder, encoder] else acc.encs ++ [encoder]),
           (if bpv = 1 then acc.decs ++ [decoder, decoder] else acc.decs ++ [decoder]),
           acc.iters ++ [compute_iterations decoder],
           acc.out ++ vintBytes ((choice bpv).format.get_id <<< 5 ||| ((choice bpv).bits_per_value - 1))⟩

/-- `ForUtilInstance::with_output`: writes the current version tag, then for
every bits-per-value 1..32 records the catalog's verdict and serializes it.
The `acceptable_overhead_ratio` argument of the source only determines the
catalog's verdict `FormatAndBits::fastest(BLOCK_SIZE, bpv, ratio)`; the
verdict function `choice` is passed explicitly here because the catalog's
cost model is external (modelled from the spec: the component only consumes
the catalog's verdict). -/
def ForUtilInstance.with_output (choice : Nat → FormatAndBits) (out : List Nat) :
    Except Err (ForUtilInstance × List Nat) :=
  match withOutputLoop choice (List.range' 1 32) ⟨[], [], [], [], out ++ vintBytes VERSION_CURRENT⟩ with
  | .error e => .error e
  | .ok acc => .ok (⟨0 :: acc.sizes, acc.decs, acc.encs, 0 :: acc.iters⟩, acc.out)

/-- `ForUtilInstance::read_block`: reads one marker byte; on the all-equal
marker reads one vint and fills `decoded[0..BLOCK_SIZE]`; otherwise reads
exactly `encoded_sizes[num_bits]` bytes into the scratch buffer and runs the
decoder for `iterations[num_bits]` iterations.  Returns the stream, the
scratch buffer and the decoded buffer after the call. -/
def ForUtilInstance.read_block (fu : ForUtilInstance) (input : ByteStream)
    (encoded : List Nat) (decoded : List Nat) :
    Except Err (ByteStream × List Nat × List Nat) :=
  match input.read_byte with
  | none => .error .ioFailure
  | some (num_bits, s₁) =>
    if num_bits = ALL_VALUES_EQUAL then
      match s₁.read_vint with
      | none => .error .ioFailure
      | some (value, s₂) =>
        if decoded.length < BLOCK_SIZE then .error .invariantViolation
        else .ok (s₂, encoded, List.replicate BLOCK_SIZE value ++ decoded.drop BLOCK_SIZE)
    else
      match fu.encoded_sizes[num_bits]? with
      | none => .error .invariantViolation
      | some esz =>
        if encoded.length < esz then .error .invariantViolation
        else
          match s₁.read_exact esz with
          | none => .error .ioFailure
          | some (fresh, s₂) =>
            match fu.decoders[num_bits]?, fu.iterations[num_bits]? with
            | some decoder, some iters =>
              if (fresh ++ encoded.drop esz).length < iters * decoder.byte_block_count ∨
                  decoded.length < iters * decoder.byte_value_count then .error .invariantViolation
              else .ok (s₂, fresh ++ encoded.drop esz,
                decoder.decode_byte_to_int (fresh ++ encoded.drop esz) decoded iters)
            | _, _ => .error .invariantViolation

/-- `ForUtilInstance::skip_block`: reads one marker byte; on the all-equal
marker consumes one vint, otherwise seeks to
`file_pointer + encoded_sizes[num_bits]` without reading the payload. -/
def ForUtilInstance.skip_block (fu : ForUtilInstance) (input : ByteStream) :
    Except Err ByteStream :=
  match input.read_byte with
  | none => .error .ioFailure
  | some (num_bits, s₁) =>
    if num_bits = ALL_VALUES_EQUAL then
      match s₁.read_vint with
      | none => .error .ioFailure
      | some (_, s₂) => .ok s₂
    else
      match fu.encoded_sizes[num_bits]? with
      | none => .error .invariantViolation
      | some esz => .ok (s₁.seek (s₁.file_pointer + esz))

/-- `ForUtil::is_all_equal`: whether `data[1..BLOCK_SIZE]` all equal `data[0]`.
The source asserts that `data` is non-empty; `write_block` guards the empty
case before calling this. -/
def ForUtil.is_all_equal (data : List Nat) : Bool :=
  match data with
  | [] => true
  | v :: rest => (rest.take (BLOCK_SIZE - 1)).all fun i => i == v

/-- Fuelled bit length; `bitlenAux fuel n` is the bit length of `n` whenever
`n < 2 ^ fuel`. -/
def bitlenAux : Nat → Nat → Nat
  | 0, _ => 0
  | fuel + 1, n => if n = 0 then 0 else bitlenAux fuel (n / 2) + 1

/-- Bit length of a 64-bit value. -/
def bitlen (n : Nat) : Nat := bitlenAux 64 n

/-- Modelled from the spec: `unsigned_bits_required` of the packed-ints
catalog, the bit length of a 64-bit value with a minimum of 1. -/
def unsigned_bits_required (v : Nat) : Nat := max 1 (bitlen v)

/-- Sign extension of an `i32` bit pattern (a `Nat` below `2 ^ 32`) into the
`i64` bit pattern (a `Nat` below `2 ^ 64`), as performed by the source
expression `or as i64`. -/
def i32_to_i64 (v : Nat) : Nat := if v < 2 ^ 31 then v else v + (2 ^ 64 - 2 ^ 32)

/-- `ForUtil::bits_required`: the bit length of the bitwise-OR reduction of
the first `BLOCK_SIZE` values (the OR is an `i32` that the source widens with
`or as i64` before taking the bit length). -/
def ForUtil.bits_required (data : List Nat) : Nat :=
  unsigned_bits_required (i32_to_i64 ((data.take BLOCK_SIZE).foldl (fun a b => a ||| b) 0))

/-- `ForUtil::write_block`: emits the 1-byte all-equal shortcut followed by one
vint when every value of the block equals `data[0]`; otherwise computes the
bits-per-value, runs the encoder for `iterations[num_bits]` iterations into the
scratch buffer and appends the marker byte plus the first
`encoded_sizes[num_bits]` scratch bytes to the output.  Returns the scratch
buffer and the output bytes after the call. -/
def ForUtil.write_block (fu : ForUtilInstance) (data : List Nat)
    (encoded : List Nat) (out : List Nat) : Except Err (List Nat × List Nat) :=
  if data.isEmpty then .error .invariantViolation
  else if ForUtil.is_all_equal data then
    .ok (encoded, out ++ ALL_VALUES_EQUAL :: vintBytes (data.headD 0))
  else
    let num_bits := ForUtil.bits_required data
    if ¬ (0 < num_bits ∧ num_bits ≤ 32) then .error .invariantViolation
    else
      match fu.iterations[num_bits]?, fu.encoders[num_bits]? with
      | some iters, some encoder =>
        if ¬ (BLOCK_SIZE ≤ iters * encoder.byte_value_count) then .error .invariantViolation
        else
          match fu.encoded_sizes[num_bits]? with
          | none => .error .invariantViolation
          | some esz =>
            if data.length < iters * encoder.byte_value_count ∨
                encoded.length < iters * encoder.byte_block_count then .error .invariantViolation
            else
              .ok (encoder.encode_int_to_byte data iters ++
                    encoded.drop (encoder.encode_int_to_byte data iters).length,
                  out ++ num_bits ::
                    (encoder.encode_int_to_byte data iters ++
                      encoded.drop (encoder.encode_int_to_byte data iters).length).take esz)
      | _, _ => .error .invariantViolation

/-- The decoder/encoder object a verdict function picks for a nominal
bits-per-value. -/
def opOf (choice : Nat → FormatAndBits) (bpv : Nat) : BulkOp :=
  ⟨(choice bpv).format, (choice bpv).bits_per_value⟩

/-- The encoded block size a verdict function yields for a nominal
bits-per-value. -/
def szOf (choice : Nat → FormatAndBits) (bpv : Nat) : Nat :=
  encoded_size (choice bpv).format VERSION_CURRENT (choice bpv).bits_per_value

/-- The iteration count a verdict function yields for a nominal
bits-per-value. -/
def itOf (choice : Nat → FormatAndBits) (bpv : Nat) : Nat :=
  compute_iterations (opOf choice bpv)

/-- The header code a verdict function yields for a nominal bits-per-value. -/
def codeOf (choice : Nat → FormatAndBits) (bpv : Nat) : Nat :=
  (choice bpv).format.get_id <<< 5 ||| ((choice bpv).bits_per_value - 1)

/-- The Format Table `with_output` builds from a verdict function. -/
def outputTable (choice : Nat → FormatAndBits) : ForUtilInstance :=
  ⟨0 :: (List.range' 1 32).map (szOf choice),
   opOf choice 1 :: (List.range' 1 32).map (opOf choice),
   opOf choice 1 :: (List.range' 1 32).map (opOf choice),
   0 :: (List.range' 1 32).map (itOf choice)⟩

/-- The Format Table `with_input` reconstructs from the persisted header:
the same table with no encoders. -/
def inputTable (choice : Nat → FormatAndBits) : ForUtilInstance :=
  ⟨(outputTable choice).encoded_sizes, (outputTable choice).decoders, [],
   (outputTable choice).iterations⟩

/-- The header bytes `with_output` persists: the version tag followed by the
32 format codes, all as vints. -/
def headerBytes (choice : Nat → FormatAndBits) : List Nat :=
  vintBytes VERSION_CURRENT ++
    (List.range' 1 32).flatMap fun bpv => vintBytes (codeOf choice bpv)

/-- The catalog's verdict at overhead ratio 0: the compact Packed layout at
the exact nominal width. -/
def compactChoice (bpv : Nat) : FormatAndBits := ⟨Format.packed, bpv⟩

/-- Modelled from the spec: the verdicts `FormatAndBits::fastest` can return.
The chosen layout is supported by its family, can hold every value the nominal
width can hold (its width is at least the nominal width: the chosen layout
only ever wastes bits, never loses them), and stays within the catalog's
32-bit range.  Quantifying over every such verdict function covers every
achievable `acceptable_overhead_ratio`. -/
def ValidChoice (choice : Nat → FormatAndBits) : Prop :=
  ∀ bpv, bpv < 33 → 1 ≤ bpv →
    ((choice bpv).format.is_supported (choice bpv).bits_per_value = true ∧
      bpv ≤ (choice bpv).bits_per_value ∧ (choice bpv).bits_per_value ≤ 32)

/-- The exact wire bytes of one block as `write_block` emits them under a
verdict function: the all-equal shortcut, or the marker byte followed by the
encoder output (the caller's buffer is the block padded with zeros up to
`max_data_size` slots, as the postings writers allocate it). -/
def blockBytesOf (choice : Nat → FormatAndBits) (values : List Nat) : List Nat :=
  if ForUtil.is_all_equal values then ALL_VALUES_EQUAL :: vintBytes (values.headD 0)
  else
    ForUtil.bits_required values ::
      (opOf choice (ForUtil.bits_required values)).encodeIters
        (itOf choice (ForUtil.bits_required values))
        (values ++ List.replicate (max_data_size - BLOCK_SIZE) 0)

/-- `i` consecutive `skip_block` calls. -/
def skipN (fu : ForUtilInstance) : Nat → ByteStream → Except Err ByteStream
  | 0, s => .ok s
  | i + 1, s =>
    match fu.skip_block s with
    | .error e => .error e
    | .ok s₁ => skipN fu i s₁

/-- `n` consecutive `read_block` calls, collecting the first `BLOCK_SIZE`
decoded values of each block and threading both caller buffers. -/
def readBlocksSeq (fu : ForUtilInstance) :
    Nat → ByteStream → List Nat → List Nat →
    Except Err (List (List Nat) × ByteStream × List Nat × List Nat)
  | 0, s, encoded, decoded => .ok ([], s, encoded, decoded)
  | n + 1, s, encoded, decoded =>
    match fu.read_block s encoded decoded with
    | .error e => .error e
    | .ok (s₁, enc₁, dec₁) =>
      match readBlocksSeq fu n s₁ enc₁ dec₁ with
      | .error e => .error e
      | .ok (vs, s₂, enc₂, dec₂) => .ok (dec₁.take BLOCK_SIZE :: vs, s₂, enc₂, dec₂)

/-! ### Variable-length integer lemmas -/

theorem vintBytes_ne_nil (n : Nat) : vintBytes n ≠ [] := by
  rw [vintBytes]
  by_cases h : n < 128 <;> simp [h]

theorem readVIntFrom_vintBytes (n : Nat) (rest : List Nat) :
    readVIntFrom (vintBytes n ++ rest) = some (n, (vintBytes n).length) := by
  induction n using Nat.strong_induction_on with
  | _ n ih =>
    rw [vintBytes]
    by_cases h : n < 128
    · simp [h, readVIntFrom]
    · rw [dif_neg h]
      have hb : ¬ n % 128 + 128 < 128 := by omega
      have hdiv : n / 128 < n := Nat.div_lt_self (by omega) (by omega)
      simp only [List.cons_append, List.length_cons, readVIntFrom, if_neg hb,
        List.append_eq]
      rw [ih (n / 128) hdiv]
      have hm : (n % 128 + 128) % 128 = n % 128 := by omega
      have hvn : n % 128 + 128 * (n / 128) = n := Nat.mod_add_div n 128
      simp [hm, hvn]

theorem read_vint_at (s : ByteStream) (n : Nat) (rest : List Nat)
    (h : s.data.drop s.pos = vintBytes n ++ rest) :
    s.read_vint = some (n, ⟨s.data, s.pos + (vintBytes n).length⟩) := by
  unfold ByteStream.read_vint
  rw [h, readVIntFrom_vintBytes]

theorem read_byte_at (s : ByteStream) (b : Nat) (rest : List Nat)
    (h : s.data.drop s.pos = b :: rest) :
    s.read_byte = some (b, ⟨s.data, s.pos + 1⟩) := by
  unfold ByteStream.read_byte
  have : s.data[s.pos]? = some b := by
    have := List.getElem?_drop s.data s.pos 0
    rw [h] at this
    simpa using this.symm
  rw [this]

theorem drop_at_advance (s : ByteStream) (l rest : List Nat)
    (h : s.data.drop s.pos = l ++ rest) :
    s.data.drop (s.pos + l.length) = rest := by
  rw [← List.drop_drop, h, List.drop_left]

theorem read_exact_at (s : ByteStream) (l rest : List Nat) (hne : l ≠ [])
    (h : s.data.drop s.pos = l ++ rest) :
    s.read_exact l.length = some (l, ⟨s.data, s.pos + l.length⟩) := by
  unfold ByteStream.read_exact
  have hpos : 0 < l.length := List.length_pos.mpr hne
  have hlen : s.pos + l.length ≤ s.data.length := by
    have := congrArg List.length h
    rw [List.length_drop, List.length_append] at this
    omega
  rw [if_pos hlen, h, List.take_left]

/-! ### Bit-packing lemmas -/

theorem length_toBitsLE (w n : Nat) : (toBitsLE w n).length = w := by
  induction w generalizing n with
  | zero => rfl
  | succ w ih => simp [toBitsLE, ih]

theorem ofBitsLE_toBitsLE (w n : Nat) (h : n < 2 ^ w) : ofBitsLE (toBitsLE w n) = n := by
  induction w generalizing n with
  | zero =>
    interval_cases n
    rfl
  | succ w ih =>
    have h2 : n / 2 < 2 ^ w := by
      rw [Nat.div_lt_iff_lt_mul (by norm_num)]
      have hp : (2 : Nat) ^ (w + 1) = 2 ^ w * 2 := pow_succ 2 w
      omega
    simp only [toBitsLE, ofBitsLE, ih (n / 2) h2]
    rcases Nat.mod_two_eq_zero_or_one n with hm | hm <;> simp [hm] <;> omega

theorem toBitsLE_ofBitsLE (l : List Bool) : toBitsLE l.length (ofBitsLE l) = l := by
  induction l with
  | nil => rfl
  | cons b bs ih =>
    simp only [List.length_cons, toBitsLE, ofBitsLE]
    have hmod : ((if b then 1 else 0) + 2 * ofBitsLE bs) % 2 = if b then 1 else 0 := by
      cases b
      · show (0 + 2 * ofBitsLE bs) % 2 = 0
        omega
      · show (1 + 2 * ofBitsLE bs) % 2 = 1
        omega
    have hdiv : ((if b then 1 else 0) + 2 * ofBitsLE bs) / 2 = ofBitsLE bs := by
      cases b
      · show (0 + 2 * ofBitsLE bs) / 2 = ofBitsLE bs
        omega
      · show (1 + 2 * ofBitsLE bs) / 2 = ofBitsLE bs
        omega
    rw [hmod, hdiv, ih]
    cases b <;> rfl

theorem ofBitsLE_lt (l : List Bool) : ofBitsLE l < 2 ^ l.length := by
  induction l with
  | nil => simp [ofBitsLE]
  | cons b bs ih =>
    simp only [ofBitsLE, List.length_cons, Nat.pow_succ]
    cases b <;> simp <;> omega

theorem length_flatMap_toBitsLE (w : Nat) (vals : List Nat) :
    (vals.flatMap (toBitsLE w)).length = vals.length * w := by
  induction vals with
  | nil => simp
  | cons v vs ih => simp [ih, length_toBitsLE, Nat.add_mul, Nat.add_comm]

theorem length_bitsToBytesN (k : Nat) (s : List Bool) : (bitsToBytesN k s).length = k := by
  induction k generalizing s with
  | zero => rfl
  | succ k ih => simp [bitsToBytesN, ih]

theorem bytesToBits_bitsToBytesN (k : Nat) (s : List Bool) (h : s.length = 8 * k) :
    bytesToBits (bitsToBytesN k s) = s := by
  induction k generalizing s with
  | zero =>
    have : s = [] := List.eq_nil_of_length_eq_zero (by omega)
    simp [this, bitsToBytesN, bytesToBits]
  | succ k ih =>
    have htake : (s.take 8).length = 8 := by
      rw [List.length_take]
      omega
    have hdrop : (s.drop 8).length = 8 * k := by
      rw [List.length_drop]
      omega
    simp only [bitsToBytesN, bytesToBits, List.flatMap_cons]
    rw [← bytesToBits]
    rw [ih (s.drop 8) hdrop]
    have : toBitsLE 8 (ofBitsLE (s.take 8)) = s.take 8 := by
      have := toBitsLE_ofBitsLE (s.take 8)
      rwa [htake] at this
    rw [this, List.take_append_drop]

theorem bitsToValsN_flatMap (bits : Nat) (vals : List Nat) (pad : List Bool)
    (hv : ∀ v ∈ vals, v < 2 ^ bits) :
    bitsToValsN bits vals.length (vals.flatMap (toBitsLE bits) ++ pad) = vals := by
  induction vals with
  | nil => rfl
  | cons v vs ih =>
    simp only [List.length_cons, List.flatMap_cons, bitsToValsN, List.append_assoc]
    rw [List.take_left' (length_toBitsLE bits v), List.drop_left' (length_toBitsLE bits v),
      ofBitsLE_toBitsLE bits v (hv v (by simp)), ih fun x hx => hv x (by simp [hx])]

/-! ### Per-iteration encode/decode lemmas -/

theorem length_encodeIter (op : BulkOp) (vals : List Nat) :
    (op.encodeIter vals).length = op.byte_block_count := by
  unfold BulkOp.encodeIter
  rw [length_bitsToBytesN]

theorem decodeIter_encodeIter (op : BulkOp) (vals : List Nat)
    (hlen : vals.length = op.byte_value_count)
    (hv : ∀ v ∈ vals, v < 2 ^ op.bits_per_value)
    (hfit : op.byte_value_count * op.bits_per_value ≤ op.byte_block_count * 8) :
    op.decodeIter (op.encodeIter vals) = vals := by
  unfold BulkOp.decodeIter BulkOp.encodeIter
  have hflat : (vals.flatMap (toBitsLE op.bits_per_value)).length =
      op.byte_value_count * op.bits_per_value := by
    rw [length_flatMap_toBitsLE, hlen]
  rw [bytesToBits_bitsToBytesN]
  · rw [← hlen, bitsToValsN_flatMap op.bits_per_value vals _ hv]
  · rw [List.length_append, List.length_replicate, hflat]
    omega

theorem length_encodeIters (op : BulkOp) (k : Nat) (data : List Nat) :
    (op.encodeIters k data).length = k * op.byte_block_count := by
  induction k generalizing data with
  | zero => simp [BulkOp.encodeIters]
  | succ k ih =>
    simp [BulkOp.encodeIters, List.length_append, length_encodeIter, ih, Nat.succ_mul,
      Nat.add_comm]

theorem length_decodeIter (op : BulkOp) (bytes : List Nat) :
    (op.decodeIter bytes).length = op.byte_value_count := by
  unfold BulkOp.decodeIter
  generalize bytesToBits bytes = s
  generalize op.byte_value_count = k
  induction k generalizing s with
  | zero => rfl
  | succ k ih => simp [bitsToValsN, ih]

theorem length_decodeIters (op : BulkOp) (k : Nat) (bytes : List Nat) :
    (op.decodeIters k bytes).length = k * op.byte_value_count := by
  induction k generalizing bytes with
  | zero => simp [BulkOp.decodeIters]
  | succ k ih =>
    simp [BulkOp.decodeIters, List.length_append, length_decodeIter, ih, Nat.succ_mul,
      Nat.add_comm]

theorem decodeIters_encodeIters (op : BulkOp) (k : Nat) (data : List Nat) (junk : List Nat)
    (hlen : k * op.byte_value_count ≤ data.length)
    (hv : ∀ v ∈ data, v < 2 ^ op.bits_per_value)
    (hfit : op.byte_value_count * op.bits_per_value ≤ op.byte_block_count * 8) :
    op.decodeIters k (op.encodeIters k data ++ junk) = data.take (k * op.byte_value_count) := by
  induction k generalizing data with
  | zero => simp [BulkOp.decodeIters, BulkOp.encodeIters]
  | succ k ih =>
    have hsm : (k + 1) * op.byte_value_count =
        op.byte_value_count + k * op.byte_value_count := by ring
    have hstep : op.byte_value_count ≤ data.length := by omega
    have htake : (data.take op.byte_value_count).length = op.byte_value_count := by
      rw [List.length_take]
      omega
    simp only [BulkOp.encodeIters, BulkOp.decodeIters, List.append_assoc]
    have h1 : ((op.encodeIter (data.take op.byte_value_count) ++
        (op.encodeIters k (data.drop op.byte_value_count) ++ junk)).take op.byte_block_count) =
        op.encodeIter (data.take op.byte_value_count) :=
      List.take_left' (length_encodeIter op _)
    have h2 : ((op.encodeIter (data.take op.byte_value_count) ++
        (op.encodeIters k (data.drop op.byte_value_count) ++ junk)).drop op.byte_block_count) =
        op.encodeIters k (data.drop op.byte_value_count) ++ junk :=
      List.drop_left' (length_encodeIter op _)
    rw [h1, h2]
    rw [decodeIter_encodeIter op _ htake (fun v hv' => hv v (List.mem_of_mem_take hv')) hfit]
    rw [ih (data.drop op.byte_value_count)
      (by rw [List.length_drop]; omega)
      (fun v hv' => hv v (List.mem_of_mem_drop hv'))]
    rw [hsm, List.take_add]

/-! ### Arithmetic facts about the 64 table slots, proved by evaluation -/

/-- The arithmetic facts needed about one (format, bits-per-value) slot:
iteration coverage in bytes equals the encoded size, iteration coverage in
values is between `BLOCK_SIZE` and `max_data_size`, the encoded size is
between 1 and `MAX_ENCODED_SIZE`, and one iteration's values fit in its
bytes. -/
abbrev slotFacts (f : Format) (b : Nat) : Prop :=
  compute_iterations ⟨f, b⟩ * BulkOp.byte_block_count ⟨f, b⟩ = encoded_size f VERSION_CURRENT b ∧
  BLOCK_SIZE ≤ compute_iterations ⟨f, b⟩ * BulkOp.byte_value_count ⟨f, b⟩ ∧
  compute_iterations ⟨f, b⟩ * BulkOp.byte_value_count ⟨f, b⟩ ≤ max_data_size ∧
  1 ≤ encoded_size f VERSION_CURRENT b ∧
  encoded_size f VERSION_CURRENT b ≤ MAX_ENCODED_SIZE ∧
  BulkOp.byte_value_count ⟨f, b⟩ * b ≤ BulkOp.byte_block_count ⟨f, b⟩ * 8 ∧
  1 ≤ BulkOp.byte_value_count ⟨f, b⟩

theorem slotFacts_all :
    ∀ b, b < 33 → 1 ≤ b → slotFacts Format.packed b ∧ slotFacts Format.packedSingleBlock b := by
  decide

theorem slotFacts_of (f : Format) (b : Nat) (h1 : 1 ≤ b) (h2 : b ≤ 32) : slotFacts f b := by
  cases f
  · exact (slotFacts_all b (by omega) h1).1
  · exact (slotFacts_all b (by omega) h1).2

theorem encoded_size_version (f : Format) (v b : Nat) :
    encoded_size f v b = encoded_size f VERSION_CURRENT b := by
  cases f <;> rfl

theorem code_split_all :
    ∀ b, b < 33 → 1 ≤ b →
      (((0 <<< 5 ||| (b - 1)) >>> 5 = 0 ∧ ((0 <<< 5 ||| (b - 1)) &&& 31) + 1 = b) ∧
       ((1 <<< 5 ||| (b - 1)) >>> 5 = 1 ∧ ((1 <<< 5 ||| (b - 1)) &&& 31) + 1 = b)) := by
  decide

theorem code_split (f : Format) (b : Nat) (h1 : 1 ≤ b) (h2 : b ≤ 32) :
    (f.get_id <<< 5 ||| (b - 1)) >>> 5 = f.get_id ∧
    ((f.get_id <<< 5 ||| (b - 1)) &&& 31) + 1 = b := by
  cases f
  · exact (code_split_all b (by omega) h1).1
  · exact (code_split_all b (by omega) h1).2

theorem with_id_get_id (f : Format) : Format.with_id f.get_id = .ok f := by
  cases f <;> rfl

/-! ### Bitwise-OR fold, max fold and bit length -/

theorem or_lt_of_or_lt_two_pow {x y k : Nat} (h : x ||| y < 2 ^ k) : x < 2 ^ k := by
  by_contra hx
  obtain ⟨i, hi, hb⟩ := Nat.ge_two_pow_implies_high_bit_true (Nat.le_of_not_lt hx)
  have hbit : (x ||| y).testBit i = true := by
    simp [Nat.testBit_or, hb]
  have hge := Nat.testBit_implies_ge hbit
  have hpow : 2 ^ k ≤ 2 ^ i := Nat.pow_le_pow_right (by omega) hi
  omega

theorem or_lt_two_pow_iff (x y k : Nat) : x ||| y < 2 ^ k ↔ x < 2 ^ k ∧ y < 2 ^ k := by
  constructor
  · intro h
    have h2 : y ||| x < 2 ^ k := by rwa [Nat.or_comm] at h
    exact ⟨or_lt_of_or_lt_two_pow h, or_lt_of_or_lt_two_pow h2⟩
  · rintro ⟨hx, hy⟩
    exact Nat.or_lt_two_pow hx hy

theorem foldl_or_lt (l : List Nat) (a k : Nat) :
    l.foldl (fun x y => x ||| y) a < 2 ^ k ↔ a < 2 ^ k ∧ ∀ v ∈ l, v < 2 ^ k := by
  induction l generalizing a with
  | nil => simp
  | cons x xs ih =>
    simp only [List.foldl_cons, ih, or_lt_two_pow_iff, List.mem_cons]
    constructor
    · rintro ⟨⟨ha, hx⟩, h⟩
      refine ⟨ha, fun v hv => ?_⟩
      rcases hv with rfl | hv
      · exact hx
      · exact h v hv
    · rintro ⟨ha, h⟩
      exact ⟨⟨ha, h x (Or.inl rfl)⟩, fun v hv => h v (Or.inr hv)⟩

theorem foldl_max_lt (l : List Nat) (a c : Nat) :
    l.foldl max a < c ↔ a < c ∧ ∀ v ∈ l, v < c := by
  induction l generalizing a with
  | nil => simp
  | cons x xs ih =>
    simp only [List.foldl_cons, ih, Nat.max_lt, List.mem_cons]
    constructor
    · rintro ⟨⟨ha, hx⟩, h⟩
      refine ⟨ha, fun v hv => ?_⟩
      rcases hv with rfl | hv
      · exact hx
      · exact h v hv
    · rintro ⟨ha, h⟩
      exact ⟨⟨ha, h x (Or.inl rfl)⟩, fun v hv => h v (Or.inr hv)⟩

theorem bitlenAux_le_iff (fuel : Nat) :
    ∀ n k, n < 2 ^ fuel → (bitlenAux fuel n ≤ k ↔ n < 2 ^ k) := by
  induction fuel with
  | zero =>
    intro n k h
    have hn : n = 0 := by simpa using h
    subst hn
    simp [bitlenAux, Nat.two_pow_pos]
  | succ fuel ih =>
    intro n k h
    by_cases hn : n = 0
    · subst hn
      simp [bitlenAux, Nat.two_pow_pos]
    · simp only [bitlenAux, if_neg hn]
      cases k with
      | zero =>
        constructor
        · intro hle
          omega
        · intro hlt
          have : n = 0 := by
            have h1 : (2 : Nat) ^ 0 = 1 := rfl
            omega
          omega
      | succ k =>
        rw [Nat.succ_le_succ_iff]
        have hdiv : n / 2 < 2 ^ fuel := by
          rw [Nat.div_lt_iff_lt_mul (by norm_num)]
          have hp : (2 : Nat) ^ (fuel + 1) = 2 ^ fuel * 2 := pow_succ 2 fuel
          omega
        rw [ih (n / 2) k hdiv, Nat.div_lt_iff_lt_mul (by norm_num), pow_succ]

theorem bitlen_le_iff (n k : Nat) (hn : n < 2 ^ 64) : bitlen n ≤ k ↔ n < 2 ^ k :=
  bitlenAux_le_iff 64 n k hn

/-! ### Table construction lemmas -/

theorem get_decoder_ok (f : Format) (v b : Nat) (hv : v ≤ VERSION_CURRENT)
    (h1 : 1 ≤ b) (h2 : b ≤ 32) : get_decoder f v b = .ok ⟨f, b⟩ := by
  unfold get_decoder
  rw [if_pos ⟨hv, h1, h2⟩]

theorem get_encoder_ok (f : Format) (v b : Nat) (hv : v ≤ VERSION_CURRENT)
    (h1 : 1 ≤ b) (h2 : b ≤ 32) : get_encoder f v b = .ok ⟨f, b⟩ := by
  unfold get_encoder
  rw [if_pos ⟨hv, h1, h2⟩]

theorem table_lookup {α : Type} (x : α) (f : Nat → α) (b : Nat) (h1 : 1 ≤ b) (h2 : b ≤ 32) :
    (x :: (List.range' 1 32).map f)[b]? = some (f b) := by
  obtain ⟨n, rfl⟩ : ∃ n, b = n + 1 := ⟨b - 1, by omega⟩
  rw [List.getElem?_cons_succ, List.getElem?_map, List.getElem?_range' 1 1 (by omega)]
  have harg : 1 + 1 * n = n + 1 := by omega
  rw [harg]
  rfl

theorem withOutputLoop_cons (choice : Nat → FormatAndBits) (bpv : Nat) (rest : List Nat)
    (acc : OutAcc) (enc dec : BulkOp)
    (henc : get_encoder (choice bpv).format VERSION_CURRENT (choice bpv).bits_per_value = .ok enc)
    (hdec : get_decoder (choice bpv).format VERSION_CURRENT (choice bpv).bits_per_value = .ok dec) :
    withOutputLoop choice (bpv :: rest) acc = withOutputLoop choice rest
      ⟨acc.sizes ++ [encoded_size (choice bpv).format VERSION_CURRENT (choice bpv).bits_per_value],
       (if bpv = 1 then acc.encs ++ [enc, enc] else acc.encs ++ [enc]),
       (if bpv = 1 then acc.decs ++ [dec, dec] else acc.decs ++ [dec]),
       acc.iters ++ [compute_iterations dec],
       acc.out ++ vintBytes ((choice bpv).format.get_id <<< 5 ||| ((choice bpv).bits_per_value - 1))⟩ := by
  rw [withOutputLoop.eq_2, henc, hdec]

theorem withInputLoop_cons (version : Nat) (bpv : Nat) (rest : List Nat) (s : ByteStream)
    (acc : InAcc) (code : Nat) (s₁ : ByteStream) (fmt : Format) (dec : BulkOp)
    (hread : s.read_vint = some (code, s₁))
    (hfmt : Format.with_id (code >>> 5) = .ok fmt)
    (hdec : get_decoder fmt version ((code &&& 31) + 1) = .ok dec) :
    withInputLoop version (bpv :: rest) s acc = withInputLoop version rest s₁
      ⟨acc.sizes ++ [encoded_size fmt version ((code &&& 31) + 1)],
       (if bpv = 1 then acc.decs ++ [dec, dec] else acc.decs ++ [dec]),
       acc.iters ++ [compute_iterations dec]⟩ := by
  simp only [withInputLoop.eq_2, hread, hfmt, hdec]

theorem withOutputLoop_spec (choice : Nat → FormatAndBits) (hc : ValidChoice choice)
    (l : List Nat) (hl : ∀ b ∈ l, 2 ≤ b ∧ b ≤ 32) (acc : OutAcc) :
    withOutputLoop choice l acc = .ok
      ⟨acc.sizes ++ l.map (szOf choice), acc.encs ++ l.map (opOf choice),
       acc.decs ++ l.map (opOf choice), acc.iters ++ l.map (itOf choice),
       acc.out ++ l.flatMap fun b => vintBytes (codeOf choice b)⟩ := by
  induction l generalizing acc with
  | nil => simp [withOutputLoop]
  | cons b bs ih =>
    obtain ⟨hb2, hb32⟩ := hl b (List.mem_cons_self b bs)
    obtain ⟨hsupp, hble, hbits32⟩ := hc b (by omega) (by omega)
    have hbits1 : 1 ≤ (choice b).bits_per_value := by omega
    rw [withOutputLoop_cons choice b bs acc (opOf choice b) (opOf choice b)
      (get_encoder_ok _ _ _ (Nat.le_refl _) hbits1 hbits32)
      (get_decoder_ok _ _ _ (Nat.le_refl _) hbits1 hbits32)]
    simp only [if_neg (show ¬ b = 1 by omega)]
    rw [ih (fun x hx => hl x (List.mem_cons_of_mem b hx))]
    simp [szOf, opOf, itOf, codeOf, List.append_assoc]

theorem with_output_spec (choice : Nat → FormatAndBits) (hc : ValidChoice choice)
    (out : List Nat) :
    ForUtilInstance.with_output choice out = .ok (outputTable choice, out ++ headerBytes choice) := by
  unfold ForUtilInstance.with_output
  have h32 : List.range' 1 32 = 1 :: List.range' 2 31 := List.range'_succ 1 31 1
  obtain ⟨hsupp, hble, hbits32⟩ := hc 1 (by omega) (by omega)
  have hbits1 : 1 ≤ (choice 1).bits_per_value := by omega
  rw [h32]
  rw [withOutputLoop_cons choice 1 (List.range' 2 31) _ (opOf choice 1) (opOf choice 1)
    (get_encoder_ok _ _ _ (Nat.le_refl _) hbits1 hbits32)
    (get_decoder_ok _ _ _ (Nat.le_refl _) hbits1 hbits32)]
  rw [withOutputLoop_spec choice hc (List.range' 2 31)
    (fun b hb => by rw [List.mem_range'] at hb; obtain ⟨i, hi, rfl⟩ := hb; omega)]
  simp [outputTable, headerBytes, h32, szOf, opOf, itOf, codeOf, List.append_assoc]

theorem withInputLoop_spec (choice : Nat → FormatAndBits) (hc : ValidChoice choice)
    (l : List Nat) (hl : ∀ b ∈ l, 2 ≤ b ∧ b ≤ 32) (acc : InAcc) (s : ByteStream)
    (rest : List Nat)
    (hs : s.data.drop s.pos = (l.flatMap fun b => vintBytes (codeOf choice b)) ++ rest) :
    withInputLoop VERSION_CURRENT l s acc = .ok
      (⟨acc.sizes ++ l.map (szOf choice), acc.decs ++ l.map (opOf choice),
        acc.iters ++ l.map (itOf choice)⟩,
       ⟨s.data, s.pos + (l.flatMap fun b => vintBytes (codeOf choice b)).length⟩) := by
  induction l generalizing acc s rest with
  | nil =>
    simp only [List.flatMap_nil, List.length_nil, Nat.add_zero, List.map_nil, List.append_nil]
    simp [withInputLoop]
  | cons b bs ih =>
    obtain ⟨hb2, hb32⟩ := hl b (List.mem_cons_self b bs)
    obtain ⟨hsupp, hble, hbits32⟩ := hc b (by omega) (by omega)
    have hbits1 : 1 ≤ (choice b).bits_per_value := by omega
    have hsplit := code_split (choice b).format (choice b).bits_per_value hbits1 hbits32
    have hs' : s.data.drop s.pos = vintBytes (codeOf choice b) ++
        ((bs.flatMap fun x => vintBytes (codeOf choice x)) ++ rest) := by
      simpa [List.flatMap_cons, List.append_assoc] using hs
    rw [withInputLoop_cons VERSION_CURRENT b bs s acc (codeOf choice b) _
      (choice b).format (opOf choice b) (read_vint_at s _ _ hs')
      (by rw [codeOf, hsplit.1, with_id_get_id])
      (by rw [codeOf, hsplit.2]
          exact get_decoder_ok _ _ _ (Nat.le_refl _) hbits1 hbits32)]
    simp only [if_neg (show ¬ b = 1 by omega)]
    rw [ih (fun x hx => hl x (List.mem_cons_of_mem b hx)) _ _ _
      (drop_at_advance s _ _ hs')]
    simp [hsplit.2, szOf, opOf, itOf, codeOf, List.append_assoc, List.length_append,
      Nat.add_assoc]

theorem with_input_spec (choice : Nat → FormatAndBits) (hc : ValidChoice choice)
    (s : ByteStream) (rest : List Nat)
    (hs : s.data.drop s.pos = headerBytes choice ++ rest) :
    ForUtilInstance.with_input s =
      .ok (inputTable choice, ⟨s.data, s.pos + (headerBytes choice).length⟩) := by
  unfold ForUtilInstance.with_input
  have h32 : List.range' 1 32 = 1 :: List.range' 2 31 := List.range'_succ 1 31 1
  have hs' : s.data.drop s.pos = vintBytes VERSION_CURRENT ++
      (((List.range' 1 32).flatMap fun b => vintBytes (codeOf choice b)) ++ rest) := by
    simpa [headerBytes, List.append_assoc] using hs
  rw [read_vint_at s _ _ hs']
  have hcv : check_version VERSION_CURRENT = .ok () := rfl
  simp only [hcv]
  obtain ⟨hsupp, hble, hbits32⟩ := hc 1 (by omega) (by omega)
  have hbits1 : 1 ≤ (choice 1).bits_per_value := by omega
  have hsplit := code_split (choice 1).format (choice 1).bits_per_value hbits1 hbits32
  have hstep : ((ByteStream.mk s.data (s.pos + (vintBytes VERSION_CURRENT).length)).data.drop
      (ByteStream.mk s.data (s.pos + (vintBytes VERSION_CURRENT).length)).pos) =
      vintBytes (codeOf choice 1) ++
        (((List.range' 2 31).flatMap fun b => vintBytes (codeOf choice b)) ++ rest) := by
    have hadv := drop_at_advance s _ _ hs'
    simpa [h32, List.flatMap_cons, List.append_assoc] using hadv
  rw [h32]
  rw [withInputLoop_cons VERSION_CURRENT 1 (List.range' 2 31) _ _ (codeOf choice 1) _
    (choice 1).format (opOf choice 1) (read_vint_at _ _ _ hstep)
    (by rw [codeOf, hsplit.1, with_id_get_id])
    (by rw [codeOf, hsplit.2]
        exact get_decoder_ok _ _ _ (Nat.le_refl _) hbits1 hbits32)]
  rw [withInputLoop_spec choice hc (List.range' 2 31)
    (fun b hb => by rw [List.mem_range'] at hb; obtain ⟨i, hi, rfl⟩ := hb; omega) _ _ _
    (drop_at_advance _ _ _ hstep)]
  simp [hsplit.2, inputTable, outputTable, headerBytes, h32, szOf, opOf, itOf, codeOf,
    List.append_assoc, List.length_append, Nat.add_assoc]

/-! ### Block-level lemmas -/

theorem is_all_equal_append (values pad : List Nat) (hlen : values.length = BLOCK_SIZE) :
    ForUtil.is_all_equal (values ++ pad) = ForUtil.is_all_equal values := by
  cases values with
  | nil => simp [BLOCK_SIZE] at hlen
  | cons v vr =>
    have hvr : BLOCK_SIZE - 1 ≤ vr.length := by
      simp only [List.length_cons] at hlen
      omega
    simp only [ForUtil.is_all_equal, List.cons_append,
      List.take_append_of_le_length hvr]

theorem is_all_equal_true_iff (values : List Nat) (hlen : values.length = BLOCK_SIZE) :
    ForUtil.is_all_equal values = true ↔
      values = List.replicate BLOCK_SIZE (values.headD 0) := by
  cases values with
  | nil => simp [BLOCK_SIZE] at hlen
  | cons v vr =>
    have hvr : vr.length = BLOCK_SIZE - 1 := by
      simp only [List.length_cons] at hlen
      omega
    have htk : vr.take (BLOCK_SIZE - 1) = vr := by
      rw [← hvr, List.take_length]
    simp only [ForUtil.is_all_equal, List.headD_cons, htk, List.all_eq_true, beq_iff_eq]
    constructor
    · intro h
      rw [List.eq_replicate_iff]
      refine ⟨hlen, fun b hb => ?_⟩
      rcases List.mem_cons.mp hb with rfl | hb
      · rfl
      · exact h b hb
    · intro h x hx
      have := List.eq_replicate_iff.mp h
      exact this.2 x (List.mem_cons_of_mem v hx)

theorem exists_pos_of_not_all_equal (values : List Nat) (hlen : values.length = BLOCK_SIZE)
    (h : ForUtil.is_all_equal values = false) : ∃ v ∈ values, 0 < v := by
  by_contra hc
  push_neg at hc
  have hz : ∀ v ∈ values, v = 0 := fun v hv => by
    have := hc v hv
    omega
  have hrep : values = List.replicate BLOCK_SIZE (values.headD 0) := by
    have hne : values ≠ [] := by
      intro hnil
      rw [hnil] at hlen
      simp [BLOCK_SIZE] at hlen
    have hhead : values.headD 0 = 0 := by
      cases values with
      | nil => rfl
      | cons v vr => exact hz v (List.mem_cons_self v vr)
    rw [hhead, List.eq_replicate_iff]
    exact ⟨hlen, hz⟩
  rw [(is_all_equal_true_iff values hlen).mpr hrep] at h
  cases h

theorem bits_required_append (values pad : List Nat) (hlen : values.length = BLOCK_SIZE) :
    ForUtil.bits_required (values ++ pad) = ForUtil.bits_required values := by
  unfold ForUtil.bits_required
  rw [List.take_append_of_le_length (le_of_eq hlen.symm)]

theorem take_block_eq_self (values : List Nat) (hlen : values.length = BLOCK_SIZE) :
    values.take BLOCK_SIZE = values := by
  rw [← hlen, List.take_length]

theorem bits_required_spec (values : List Nat) (hlen : values.length = BLOCK_SIZE)
    (hv : ∀ v ∈ values, v < 2 ^ 31) (hpos : ∃ v ∈ values, 0 < v) :
    1 ≤ ForUtil.bits_required values ∧ ForUtil.bits_required values ≤ 31 ∧
    (∀ v ∈ values, v < 2 ^ ForUtil.bits_required values) ∧
    (∀ k, k < ForUtil.bits_required values → ¬ (∀ v ∈ values, v < 2 ^ k)) ∧
    ForUtil.bits_required values = unsigned_bits_required (i32_to_i64 (values.foldl max 0)) := by
  have hor31 : values.foldl (fun a b => a ||| b) 0 < 2 ^ 31 :=
    (foldl_or_lt values 0 31).mpr ⟨by norm_num, hv⟩
  have hor64 : values.foldl (fun a b => a ||| b) 0 < 2 ^ 64 := by
    have : (2 : Nat) ^ 31 < 2 ^ 64 := by norm_num
    omega
  have hmax31 : values.foldl max 0 < 2 ^ 31 :=
    (foldl_max_lt values 0 (2 ^ 31)).mpr ⟨by norm_num, hv⟩
  have hmax64 : values.foldl max 0 < 2 ^ 64 := by
    have : (2 : Nat) ^ 31 < 2 ^ 64 := by norm_num
    omega
  have hbr : ForUtil.bits_required values =
      max 1 (bitlen (values.foldl (fun a b => a ||| b) 0)) := by
    unfold ForUtil.bits_required unsigned_bits_required
    rw [take_block_eq_self values hlen, i32_to_i64, if_pos hor31]
  have hb31 : bitlen (values.foldl (fun a b => a ||| b) 0) ≤ 31 :=
    (bitlen_le_iff _ 31 hor64).mpr hor31
  refine ⟨?_, ?_, ?_, ?_, ?_⟩
  · rw [hbr]
    exact Nat.le_max_left _ _
  · rw [hbr]
    omega
  · intro v hvv
    have hble : bitlen (values.foldl (fun a b => a ||| b) 0) ≤
        ForUtil.bits_required values := by
      rw [hbr]
      exact Nat.le_max_right _ _
    have hor_lt : values.foldl (fun a b => a ||| b) 0 <
        2 ^ ForUtil.bits_required values :=
      (bitlen_le_iff _ _ hor64).mp hble
    exact ((foldl_or_lt values 0 _).mp hor_lt).2 v hvv
  · intro k hk hall
    rcases Nat.eq_zero_or_pos k with rfl | hk1
    · obtain ⟨v, hvv, hvpos⟩ := hpos
      have := hall v hvv
      simp at this
      omega
    · have hor_lt : values.foldl (fun a b => a ||| b) 0 < 2 ^ k :=
        (foldl_or_lt values 0 k).mpr ⟨Nat.two_pow_pos k, hall⟩
      have hble : bitlen (values.foldl (fun a b => a ||| b) 0) ≤ k :=
        (bitlen_le_iff _ k hor64).mpr hor_lt
      rw [hbr] at hk
      omega
  · rw [hbr]
    unfold unsigned_bits_required
    rw [i32_to_i64, if_pos hmax31]
    have h1 : bitlen (values.foldl (fun a b => a ||| b) 0) ≤
        bitlen (values.foldl max 0) := by
      rw [bitlen_le_iff _ _ hor64]
      refine (foldl_or_lt values 0 _).mpr ⟨Nat.two_pow_pos _, ?_⟩
      exact ((foldl_max_lt values 0 _).mp ((bitlen_le_iff _ _ hmax64).mp (Nat.le_refl _))).2
    have h2 : bitlen (values.foldl max 0) ≤
        bitlen (values.foldl (fun a b => a ||| b) 0) := by
      rw [bitlen_le_iff _ _ hmax64]
      refine (foldl_max_lt values 0 _).mpr ⟨Nat.two_pow_pos _, ?_⟩
      exact ((foldl_or_lt values 0 _).mp ((bitlen_le_iff _ _ hor64).mp (Nat.le_refl _))).2
    omega

theorem block_le_max_data_size : BLOCK_SIZE ≤ max_data_size := by
  have h := slotFacts_of Format.packed 1 (by omega) (by omega)
  exact le_trans h.2.1 h.2.2.1

theorem data_pad_length (values : List Nat) (hlen : values.length = BLOCK_SIZE) :
    (values ++ List.replicate (max_data_size - BLOCK_SIZE) 0).length = max_data_size := by
  have := block_le_max_data_size
  rw [List.length_append, hlen, List.length_replicate]
  omega

theorem headD_append_of_ne_nil (values pad : List Nat) (h : values ≠ []) :
    (values ++ pad).headD 0 = values.headD 0 := by
  cases values with
  | nil => exact absurd rfl h
  | cons v vr => rfl

theorem outputTable_iterations_lookup (choice : Nat → FormatAndBits) (b : Nat)
    (h1 : 1 ≤ b) (h2 : b ≤ 32) :
    (outputTable choice).iterations[b]? = some (itOf choice b) :=
  table_lookup 0 (itOf choice) b h1 h2

theorem outputTable_sizes_lookup (choice : Nat → FormatAndBits) (b : Nat)
    (h1 : 1 ≤ b) (h2 : b ≤ 32) :
    (outputTable choice).encoded_sizes[b]? = some (szOf choice b) :=
  table_lookup 0 (szOf choice) b h1 h2

theorem outputTable_decoders_lookup (choice : Nat → FormatAndBits) (b : Nat)
    (h1 : 1 ≤ b) (h2 : b ≤ 32) :
    (outputTable choice).decoders[b]? = some (opOf choice b) :=
  table_lookup (opOf choice 1) (opOf choice) b h1 h2

theorem outputTable_encoders_lookup (choice : Nat → FormatAndBits) (b : Nat)
    (h1 : 1 ≤ b) (h2 : b ≤ 32) :
    (outputTable choice).encoders[b]? = some (opOf choice b) :=
  table_lookup (opOf choice 1) (opOf choice) b h1 h2

theorem write_block_spec (choice : Nat → FormatAndBits) (hc : ValidChoice choice)
    (values : List Nat) (hlen : values.length = BLOCK_SIZE)
    (hv : ∀ v ∈ values, v < 2 ^ 31) (encoded out : List Nat)
    (hsc : MAX_ENCODED_SIZE ≤ encoded.length) :
    ∃ scr, ForUtil.write_block (outputTable choice)
        (values ++ List.replicate (max_data_size - BLOCK_SIZE) 0) encoded out
        = .ok (scr, out ++ blockBytesOf choice values) ∧
      scr.length = encoded.length := by
  have hne : values ≠ [] := by
    intro hnil
    rw [hnil] at hlen
    simp [BLOCK_SIZE] at hlen
  have hempty : (values ++ List.replicate (max_data_size - BLOCK_SIZE) 0).isEmpty = false := by
    cases values with
    | nil => exact absurd rfl hne
    | cons v vr => rfl
  by_cases heq : ForUtil.is_all_equal values = true
  · refine ⟨encoded, ?_, rfl⟩
    unfold ForUtil.write_block
    rw [hempty]
    simp only [Bool.false_eq_true, if_false]
    rw [is_all_equal_append values _ hlen, heq]
    simp only [if_true]
    rw [headD_append_of_ne_nil values _ hne]
    unfold blockBytesOf
    rw [if_pos heq]
  · have heqf : ForUtil.is_all_equal values = false := by
      cases h : ForUtil.is_all_equal values
      · rfl
      · exact absurd h heq
    have hpos := exists_pos_of_not_all_equal values hlen heqf
    obtain ⟨hnb1, hnb31, hnbv, hnbmin, hnbmax⟩ := bits_required_spec values hlen hv hpos
    set nb := ForUtil.bits_required values with hnbdef
    obtain ⟨hsupp, hble, hbits32⟩ := hc nb (by omega) hnb1
    have hbits1 : 1 ≤ (choice nb).bits_per_value := by omega
    have hfacts := slotFacts_of (choice nb).format (choice nb).bits_per_value hbits1 hbits32
    have hdatalen := data_pad_length values hlen
    have hdv : ∀ v ∈ values ++ List.replicate (max_data_size - BLOCK_SIZE) 0,
        v < 2 ^ (choice nb).bits_per_value := by
      intro v hvv
      rcases List.mem_append.mp hvv with hvv | hvv
      · have h1 : v < 2 ^ nb := hnbv v hvv
        have h2 : (2 : Nat) ^ nb ≤ 2 ^ (choice nb).bits_per_value :=
          Nat.pow_le_pow_right (by omega) hble
        omega
      · have : v = 0 := List.eq_of_mem_replicate hvv
        subst this
        exact Nat.two_pow_pos _
    unfold ForUtil.write_block
    rw [hempty]
    simp only [Bool.false_eq_true, if_false]
    rw [is_all_equal_append values _ hlen, heqf]
    simp only [Bool.false_eq_true, if_false]
    rw [bits_required_append values _ hlen, ← hnbdef]
    rw [if_neg (not_not_intro ⟨by omega, by omega⟩)]
    simp only [outputTable_iterations_lookup choice nb hnb1 (by omega),
      outputTable_encoders_lookup choice nb hnb1 (by omega)]
    have hbs : BLOCK_SIZE ≤ itOf choice nb * (opOf choice nb).byte_value_count :=
      hfacts.2.1
    rw [if_neg (not_not_intro hbs)]
    simp only [outputTable_sizes_lookup choice nb hnb1 (by omega)]
    have hencl : ((opOf choice nb).encode_int_to_byte
        (values ++ List.replicate (max_data_size - BLOCK_SIZE) 0) (itOf choice nb)).length
        = szOf choice nb := by
      unfold BulkOp.encode_int_to_byte
      rw [length_encodeIters]
      exact hfacts.1
    have hmds : itOf choice nb * (opOf choice nb).byte_value_count ≤ max_data_size :=
      hfacts.2.2.1
    have hesz : itOf choice nb * (opOf choice nb).byte_block_count = szOf choice nb :=
      hfacts.1
    have hmexz : szOf choice nb ≤ MAX_ENCODED_SIZE := hfacts.2.2.2.2.1
    have hguard : ¬ ((values ++ List.replicate (max_data_size - BLOCK_SIZE) 0).length <
        itOf choice nb * (opOf choice nb).byte_value_count ∨
        encoded.length < itOf choice nb * (opOf choice nb).byte_block_count) := by
      rw [not_or, hdatalen]
      omega
    rw [if_neg hguard, List.take_left' hencl]
    refine ⟨(opOf choice nb).encode_int_to_byte
        (values ++ List.replicate (max_data_size - BLOCK_SIZE) 0) (itOf choice nb) ++
        encoded.drop ((opOf choice nb).encode_int_to_byte
          (values ++ List.replicate (max_data_size - BLOCK_SIZE) 0) (itOf choice nb)).length,
      ?_, ?_⟩
    · simp [blockBytesOf, heqf, BulkOp.encode_int_to_byte, ← hnbdef]
    · rw [List.length_append, List.length_drop, hencl]
      omega

theorem read_exact_at' (s : ByteStream) (l rest : List Nat) (k : Nat) (hk : k = l.length)
    (hne : l ≠ []) (h : s.data.drop s.pos = l ++ rest) :
    s.read_exact k = some (l, ⟨s.data, s.pos + k⟩) := by
  subst hk
  exact read_exact_at s l rest hne h

theorem read_block_at (choice : Nat → FormatAndBits) (hc : ValidChoice choice)
    (values : List Nat) (hlen : values.length = BLOCK_SIZE)
    (hv : ∀ v ∈ values, v < 2 ^ 31) (s : ByteStream) (rest : List Nat)
    (hs : s.data.drop s.pos = blockBytesOf choice values ++ rest)
    (encoded decoded : List Nat) (hsc : MAX_ENCODED_SIZE ≤ encoded.length)
    (hdc : max_data_size ≤ decoded.length) :
    ∃ scr dec, ForUtilInstance.read_block (outputTable choice) s encoded decoded =
        .ok (⟨s.data, s.pos + (blockBytesOf choice values).length⟩, scr, dec) ∧
      dec.take BLOCK_SIZE = values ∧ dec.length = decoded.length ∧
      scr.length = encoded.length := by
  have hBmds := block_le_max_data_size
  by_cases heq : ForUtil.is_all_equal values = true
  · have hbb : blockBytesOf choice values =
        ALL_VALUES_EQUAL :: vintBytes (values.headD 0) := by
      unfold blockBytesOf
      rw [if_pos heq]
    rw [hbb] at hs ⊢
    have hs0 : s.data.drop s.pos = ALL_VALUES_EQUAL ::
        (vintBytes (values.headD 0) ++ rest) := by
      simpa using hs
    have hs1 : s.data.drop (s.pos + 1) = vintBytes (values.headD 0) ++ rest := by
      have := drop_at_advance s [ALL_VALUES_EQUAL] (vintBytes (values.headD 0) ++ rest)
        (by simpa using hs0)
      simpa using this
    refine ⟨encoded, List.replicate BLOCK_SIZE (values.headD 0) ++ decoded.drop BLOCK_SIZE,
      ?_, ?_, ?_, rfl⟩
    · unfold ForUtilInstance.read_block
      rw [read_byte_at s ALL_VALUES_EQUAL (vintBytes (values.headD 0) ++ rest) hs0]
      simp only [if_pos (rfl : ALL_VALUES_EQUAL = ALL_VALUES_EQUAL)]
      rw [read_vint_at ⟨s.data, s.pos + 1⟩ (values.headD 0) rest (by simpa using hs1)]
      simp only []
      rw [if_neg (show ¬ decoded.length < BLOCK_SIZE by omega)]
      simp [List.length_cons]
      omega
    · rw [List.take_left' (List.length_replicate BLOCK_SIZE _)]
      exact ((is_all_equal_true_iff values hlen).mp heq).symm
    · rw [List.length_append, List.length_drop, List.length_replicate]
      omega
  · have heqf : ForUtil.is_all_equal values = false := by
      cases h : ForUtil.is_all_equal values
      · rfl
      · exact absurd h heq
    have hpos := exists_pos_of_not_all_equal values hlen heqf
    obtain ⟨hnb1, hnb31, hnbv, hnbmin, hnbmax⟩ := bits_required_spec values hlen hv hpos
    set nb := ForUtil.bits_required values with hnbdef
    obtain ⟨hsupp, hble, hbits32⟩ := hc nb (by omega) hnb1
    have hbits1 : 1 ≤ (choice nb).bits_per_value := by omega
    have hfacts := slotFacts_of (choice nb).format (choice nb).bits_per_value hbits1 hbits32
    have hdatalen := data_pad_length values hlen
    have hdv : ∀ v ∈ values ++ List.replicate (max_data_size - BLOCK_SIZE) 0,
        v < 2 ^ (choice nb).bits_per_value := by
      intro v hvv
      rcases List.mem_append.mp hvv with hvv | hvv
      · have h1 : v < 2 ^ nb := hnbv v hvv
        have h2 : (2 : Nat) ^ nb ≤ 2 ^ (choice nb).bits_per_value :=
          Nat.pow_le_pow_right (by omega) hble
        omega
      · have : v = 0 := List.eq_of_mem_replicate hvv
        subst this
        exact Nat.two_pow_pos _
    have hbb : blockBytesOf choice values = nb ::
        (opOf choice nb).encodeIters (itOf choice nb)
          (values ++ List.replicate (max_data_size - BLOCK_SIZE) 0) := by
      unfold blockBytesOf
      rw [if_neg (by rw [heqf]; exact Bool.false_ne_true), ← hnbdef]
    have hencl : ((opOf choice nb).encodeIters (itOf choice nb)
        (values ++ List.replicate (max_data_size - BLOCK_SIZE) 0)).length
        = szOf choice nb := by
      rw [length_encodeIters]
      exact hfacts.1
    have hmds : itOf choice nb * (opOf choice nb).byte_value_count ≤ max_data_size :=
      hfacts.2.2.1
    have hbs : BLOCK_SIZE ≤ itOf choice nb * (opOf choice nb).byte_value_count :=
      hfacts.2.1
    have hesz : itOf choice nb * (opOf choice nb).byte_block_count = szOf choice nb :=
      hfacts.1
    have hesz1 : 1 ≤ szOf choice nb := hfacts.2.2.2.1
    have hmexz : szOf choice nb ≤ MAX_ENCODED_SIZE := hfacts.2.2.2.2.1
    rw [hbb] at hs ⊢
    have hs0 : s.data.drop s.pos = nb ::
        ((opOf choice nb).encodeIters (itOf choice nb)
          (values ++ List.replicate (max_data_size - BLOCK_SIZE) 0) ++ rest) := by
      simpa using hs
    have hs1 : s.data.drop (s.pos + 1) =
        (opOf choice nb).encodeIters (itOf choice nb)
          (values ++ List.replicate (max_data_size - BLOCK_SIZE) 0) ++ rest := by
      have := drop_at_advance s [nb] ((opOf choice nb).encodeIters (itOf choice nb)
        (values ++ List.replicate (max_data_size - BLOCK_SIZE) 0) ++ rest)
        (by simpa using hs0)
      simpa using this
    have hdecoded : decoded.length ≥ itOf choice nb * (opOf choice nb).byte_value_count := by
      omega
    have hvals := decodeIters_encodeIters (opOf choice nb) (itOf choice nb)
      (values ++ List.replicate (max_data_size - BLOCK_SIZE) 0) (encoded.drop (szOf choice nb))
      (by rw [hdatalen]; exact hmds) hdv hfacts.2.2.2.2.2.1
    have hvalslen : ((values ++ List.replicate (max_data_size - BLOCK_SIZE) 0).take
        (itOf choice nb * (opOf choice nb).byte_value_count)).length =
        itOf choice nb * (opOf choice nb).byte_value_count := by
      rw [List.length_take, hdatalen]
      omega
    refine ⟨(opOf choice nb).encodeIters (itOf choice nb)
        (values ++ List.replicate (max_data_size - BLOCK_SIZE) 0) ++
        encoded.drop (szOf choice nb),
      (values ++ List.replicate (max_data_size - BLOCK_SIZE) 0).take
        (itOf choice nb * (opOf choice nb).byte_value_count) ++
        decoded.drop (itOf choice nb * (opOf choice nb).byte_value_count),
      ?_, ?_, ?_, ?_⟩
    · unfold ForUtilInstance.read_block
      rw [read_byte_at s nb _ hs0]
      simp only []
      rw [if_neg (show ¬ nb = ALL_VALUES_EQUAL by
        have : ALL_VALUES_EQUAL = 0 := rfl
        omega)]
      simp only [outputTable_sizes_lookup choice nb hnb1 (by omega)]
      rw [if_neg (show ¬ encoded.length < szOf choice nb by omega)]
      rw [read_exact_at' ⟨s.data, s.pos + 1⟩ _ rest (szOf choice nb) hencl.symm
        (by intro hn; rw [hn] at hencl; simp at hencl; omega) (by simpa using hs1)]
      simp only [outputTable_decoders_lookup choice nb hnb1 (by omega),
        outputTable_iterations_lookup choice nb hnb1 (by omega)]
      rw [if_neg (show ¬ (((opOf choice nb).encodeIters (itOf choice nb)
          (values ++ List.replicate (max_data_size - BLOCK_SIZE) 0) ++
          encoded.drop (szOf choice nb)).length <
            itOf choice nb * (opOf choice nb).byte_block_count ∨
          decoded.length < itOf choice nb * (opOf choice nb).byte_value_count) by
        rw [not_or, List.length_append, List.length_drop, hencl]
        omega)]
      unfold BulkOp.decode_byte_to_int
      rw [hvals, hvalslen]
      simp [List.length_cons]
      omega
    · rw [List.take_append_of_le_length (by omega), List.take_take,
        Nat.min_eq_left (by omega), List.take_left' hlen]
    · rw [List.length_append, List.length_drop, hvalslen]
      omega
    · rw [List.length_append, List.length_drop, hencl]
      omega

theorem skip_block_at (choice : Nat → FormatAndBits) (hc : ValidChoice choice)
    (values : List Nat) (hlen : values.length = BLOCK_SIZE)
    (hv : ∀ v ∈ values, v < 2 ^ 31) (s : ByteStream) (rest : List Nat)
    (hs : s.data.drop s.pos = blockBytesOf choice values ++ rest) :
    ForUtilInstance.skip_block (outputTable choice) s =
      .ok ⟨s.data, s.pos + (blockBytesOf choice values).length⟩ := by
  by_cases heq : ForUtil.is_all_equal values = true
  · have hbb : blockBytesOf choice values =
        ALL_VALUES_EQUAL :: vintBytes (values.headD 0) := by
      unfold blockBytesOf
      rw [if_pos heq]
    rw [hbb] at hs ⊢
    have hs0 : s.data.drop s.pos = ALL_VALUES_EQUAL ::
        (vintBytes (values.headD 0) ++ rest) := by
      simpa using hs
    have hs1 : s.data.drop (s.pos + 1) = vintBytes (values.headD 0) ++ rest := by
      have := drop_at_advance s [ALL_VALUES_EQUAL] (vintBytes (values.headD 0) ++ rest)
        (by simpa using hs0)
      simpa using this
    unfold ForUtilInstance.skip_block
    rw [read_byte_at s ALL_VALUES_EQUAL (vintBytes (values.headD 0) ++ rest) hs0]
    simp only [if_pos (rfl : ALL_VALUES_EQUAL = ALL_VALUES_EQUAL)]
    rw [read_vint_at ⟨s.data, s.pos + 1⟩ (values.headD 0) rest (by simpa using hs1)]
    simp [List.length_cons]
    omega
  · have heqf : ForUtil.is_all_equal values = false := by
      cases h : ForUtil.is_all_equal values
      · rfl
      · exact absurd h heq
    have hpos := exists_pos_of_not_all_equal values hlen heqf
    obtain ⟨hnb1, hnb31, hnbv, hnbmin, hnbmax⟩ := bits_required_spec values hlen hv hpos
    set nb := ForUtil.bits_required values with hnbdef
    obtain ⟨hsupp, hble, hbits32⟩ := hc nb (by omega) hnb1
    have hbits1 : 1 ≤ (choice nb).bits_per_value := by omega
    have hfacts := slotFacts_of (choice nb).format (choice nb).bits_per_value hbits1 hbits32
    have hbb : blockBytesOf choice values = nb ::
        (opOf choice nb).encodeIters (itOf choice nb)
          (values ++ List.replicate (max_data_size - BLOCK_SIZE) 0) := by
      unfold blockBytesOf
      rw [if_neg (by rw [heqf]; exact Bool.false_ne_true), ← hnbdef]
    have hencl : ((opOf choice nb).encodeIters (itOf choice nb)
        (values ++ List.replicate (max_data_size - BLOCK_SIZE) 0)).length
        = szOf choice nb := by
      rw [length_encodeIters]
      exact hfacts.1
    rw [hbb] at hs ⊢
    have hs0 : s.data.drop s.pos = nb ::
        ((opOf choice nb).encodeIters (itOf choice nb)
          (values ++ List.replicate (max_data_size - BLOCK_SIZE) 0) ++ rest) := by
      simpa using hs
    unfold ForUtilInstance.skip_block
    rw [read_byte_at s nb _ hs0]
    simp only []
    rw [if_neg (show ¬ nb = ALL_VALUES_EQUAL by
      have : ALL_VALUES_EQUAL = 0 := rfl
      omega)]
    simp only [outputTable_sizes_lookup choice nb hnb1 (by omega)]
    unfold ByteStream.seek ByteStream.file_pointer
    simp [List.length_cons, hencl]
    omega

theorem read_block_input_eq (choice : Nat → FormatAndBits) (s : ByteStream)
    (encoded decoded : List Nat) :
    ForUtilInstance.read_block (inputTable choice) s encoded decoded =
      ForUtilInstance.read_block (outputTable choice) s encoded decoded := rfl

theorem skip_block_input_eq (choice : Nat → FormatAndBits) (s : ByteStream) :
    ForUtilInstance.skip_block (inputTable choice) s =
      ForUtilInstance.skip_block (outputTable choice) s := rfl

/-! ### Sequences of blocks -/

theorem readBlocksSeq_spec (choice : Nat → FormatAndBits) (hc : ValidChoice choice)
    (blocks : List (List Nat))
    (hall : ∀ blk ∈ blocks, blk.length = BLOCK_SIZE ∧ ∀ v ∈ blk, v < 2 ^ 31)
    (s : ByteStream) (rest : List Nat)
    (hs : s.data.drop s.pos = (blocks.flatMap fun b => blockBytesOf choice b) ++ rest)
    (encoded decoded : List Nat) (hsc : MAX_ENCODED_SIZE ≤ encoded.length)
    (hdc : max_data_size ≤ decoded.length) :
    ∃ enc dec, readBlocksSeq (outputTable choice) blocks.length s encoded decoded =
      .ok (blocks,
        ⟨s.data, s.pos + ((blocks.flatMap fun b => blockBytesOf choice b)).length⟩,
        enc, dec) := by
  induction blocks generalizing s rest encoded decoded with
  | nil =>
    refine ⟨encoded, decoded, ?_⟩
    simp [readBlocksSeq]
  | cons blk bs ih =>
    obtain ⟨hblen, hbv⟩ := hall blk (List.mem_cons_self blk bs)
    have hs' : s.data.drop s.pos = blockBytesOf choice blk ++
        ((bs.flatMap fun b => blockBytesOf choice b) ++ rest) := by
      simpa [List.flatMap_cons, List.append_assoc] using hs
    obtain ⟨scr, dec, hread, htake, hdlen, hslen⟩ :=
      read_block_at choice hc blk hblen hbv s _ hs' encoded decoded hsc hdc
    obtain ⟨enc2, dec2, hrec⟩ := ih (fun b hb => hall b (List.mem_cons_of_mem blk hb))
      ⟨s.data, s.pos + (blockBytesOf choice blk).length⟩ rest
      (by simpa using drop_at_advance s _ _ hs') scr dec
      (by rw [hslen]; exact hsc) (by rw [hdlen]; exact hdc)
    refine ⟨enc2, dec2, ?_⟩
    simp only [List.length_cons, readBlocksSeq, hread, hrec, htake]
    simp [List.flatMap_cons, List.length_append, Nat.add_assoc]

theorem skipN_spec (choice : Nat → FormatAndBits) (hc : ValidChoice choice)
    (i : Nat) (blocks : List (List Nat))
    (hall : ∀ blk ∈ blocks, blk.length = BLOCK_SIZE ∧ ∀ v ∈ blk, v < 2 ^ 31)
    (s : ByteStream) (rest : List Nat)
    (hs : s.data.drop s.pos = (blocks.flatMap fun b => blockBytesOf choice b) ++ rest)
    (hi : i ≤ blocks.length) :
    skipN (outputTable choice) i s =
      .ok ⟨s.data,
        s.pos + (((blocks.take i).flatMap fun b => blockBytesOf choice b)).length⟩ := by
  induction i generalizing blocks s rest with
  | zero => simp [skipN]
  | succ i ih =>
    cases blocks with
    | nil => simp at hi
    | cons blk bs =>
      obtain ⟨hblen, hbv⟩ := hall blk (List.mem_cons_self blk bs)
      have hs' : s.data.drop s.pos = blockBytesOf choice blk ++
          ((bs.flatMap fun b => blockBytesOf choice b) ++ rest) := by
        simpa [List.flatMap_cons, List.append_assoc] using hs
      have hskip := skip_block_at choice hc blk hblen hbv s _ hs'
      simp only [skipN, hskip]
      rw [ih bs (fun b hb => hall b (List.mem_cons_of_mem blk hb))
        ⟨s.data, s.pos + (blockBytesOf choice blk).length⟩ rest
        (by simpa using drop_at_advance s _ _ hs')
        (by simpa using hi)]
      simp [List.take_succ_cons, List.flatMap_cons, List.length_append, Nat.add_assoc]

/-! ### Helpers for the claim theorems -/

theorem replicate_block_succ (v : Nat) :
    List.replicate BLOCK_SIZE v = v :: List.replicate (BLOCK_SIZE - 1) v := rfl

theorem is_all_equal_replicate (v : Nat) :
    ForUtil.is_all_equal (List.replicate BLOCK_SIZE v) = true := by
  rw [(is_all_equal_true_iff _ (List.length_replicate _ _))]
  rw [replicate_block_succ]
  rfl

theorem write_block_all_equal (fu : ForUtilInstance) (v : Nat)
    (pad scratch out : List Nat) :
    ForUtil.write_block fu (List.replicate BLOCK_SIZE v ++ pad) scratch out
      = .ok (scratch, out ++ ALL_VALUES_EQUAL :: vintBytes v) := by
  have hne : List.replicate BLOCK_SIZE v ≠ [] := by
    rw [replicate_block_succ]
    exact List.cons_ne_nil v _
  have hempty : (List.replicate BLOCK_SIZE v ++ pad).isEmpty = false := by
    rw [replicate_block_succ]
    rfl
  unfold ForUtil.write_block
  rw [hempty]
  simp only [Bool.false_eq_true, if_false]
  rw [is_all_equal_append _ _ (List.length_replicate _ _), is_all_equal_replicate]
  simp only [if_true]
  rw [headD_append_of_ne_nil _ _ hne, replicate_block_succ]
  rfl

theorem read_block_all_equal (fu : ForUtilInstance) (v : Nat)
    (scratch decoded : List Nat) (hdec : BLOCK_SIZE ≤ decoded.length)
    (s : ByteStream) (rest : List Nat)
    (hs : s.data.drop s.pos = (ALL_VALUES_EQUAL :: vintBytes v) ++ rest) :
    fu.read_block s scratch decoded
      = .ok (⟨s.data, s.pos + (ALL_VALUES_EQUAL :: vintBytes v).length⟩, scratch,
          List.replicate BLOCK_SIZE v ++ decoded.drop BLOCK_SIZE) := by
  have hs0 : s.data.drop s.pos = ALL_VALUES_EQUAL :: (vintBytes v ++ rest) := by
    simpa using hs
  have hs1 : s.data.drop (s.pos + 1) = vintBytes v ++ rest := by
    have := drop_at_advance s [ALL_VALUES_EQUAL] (vintBytes v ++ rest) (by simpa using hs0)
    simpa using this
  unfold ForUtilInstance.read_block
  rw [read_byte_at s ALL_VALUES_EQUAL (vintBytes v ++ rest) hs0]
  simp only [if_pos (rfl : ALL_VALUES_EQUAL = ALL_VALUES_EQUAL)]
  rw [read_vint_at ⟨s.data, s.pos + 1⟩ v rest (by simpa using hs1)]
  simp only []
  rw [if_neg (show ¬ decoded.length < BLOCK_SIZE by omega)]
  simp [List.length_cons]
  omega

theorem drop_append_ge {α : Type} (l₁ l₂ : List α) (n : Nat) (h : l₁.length ≤ n) :
    (l₁ ++ l₂).drop n = l₂.drop (n - l₁.length) := by
  obtain ⟨k, rfl⟩ : ∃ k, n = l₁.length + k := ⟨n - l₁.length, by omega⟩
  rw [List.drop_append, Nat.add_sub_cancel_left]

theorem table_lookup_inv {α : Type} (x : α) (f : Nat → α) (b : Nat) (y : α)
    (hb : 1 ≤ b) (h : (x :: (List.range' 1 32).map f)[b]? = some y) :
    y = f b ∧ b ≤ 32 := by
  have hlt : b < (x :: (List.range' 1 32).map f).length := by
    by_contra hge
    rw [List.getElem?_eq_none (by omega)] at h
    cases h
  have hlen : (x :: (List.range' 1 32).map f).length = 33 := by
    simp
  have hb32 : b ≤ 32 := by omega
  have := table_lookup x f b hb hb32
  rw [this] at h
  exact ⟨(Option.some.injEq _ _).mp h.symm, hb32⟩

theorem read_block_bound (choice : Nat → FormatAndBits) (hc : ValidChoice choice)
    (s : ByteStream) (encoded decoded : List Nat) (s' : ByteStream) (scr dec : List Nat)
    (h : ForUtilInstance.read_block (outputTable choice) s encoded decoded
      = .ok (s', scr, dec)) :
    dec.drop max_data_size = decoded.drop max_data_size ∧ dec.length = decoded.length := by
  have hBmds := block_le_max_data_size
  unfold ForUtilInstance.read_block at h
  split at h
  · cases h
  · rename_i num_bits s₁ heq
    split at h
    · split at h
      · cases h
      · rename_i value s₂ hvint
        split at h
        · cases h
        · rename_i hguard
          simp only [Except.ok.injEq, Prod.mk.injEq] at h
          obtain ⟨h1, h2, h3⟩ := h
          subst h3
          constructor
          · rw [drop_append_ge _ _ _ (by rw [List.length_replicate]; omega),
              List.length_replicate, List.drop_drop,
              show BLOCK_SIZE + (max_data_size - BLOCK_SIZE) = max_data_size from by omega]
          · rw [List.length_append, List.length_replicate, List.length_drop]
            omega
    · split at h
      · cases h
      · rename_i esz hesz
        split at h
        · cases h
        · split at h
          · cases h
          · rename_i fresh s₂ hexact
            split at h
            · rename_i decoder iters hdec hiters
              split at h
              · cases h
              · rename_i hguard
                simp only [Except.ok.injEq, Prod.mk.injEq] at h
                obtain ⟨h1, h2, h3⟩ := h
                subst h3
                have hnb1 : 1 ≤ num_bits := by
                  rename_i hne0
                  have : ALL_VALUES_EQUAL = 0 := rfl
                  omega
                obtain ⟨hitv, hnb32⟩ := table_lookup_inv 0 (itOf choice) num_bits iters
                  hnb1 hiters
                obtain ⟨hdecv, _⟩ := table_lookup_inv (opOf choice 1) (opOf choice)
                  num_bits decoder hnb1 hdec
                subst hitv
                subst hdecv
                obtain ⟨hsupp, hble, hbits32⟩ := hc num_bits (by omega) hnb1
                have hbits1 : 1 ≤ (choice num_bits).bits_per_value := by omega
                have hfacts := slotFacts_of (choice num_bits).format
                  (choice num_bits).bits_per_value hbits1 hbits32
                have hmds : itOf choice num_bits *
                    (opOf choice num_bits).byte_value_count ≤ max_data_size :=
                  hfacts.2.2.1
                have hvlen : ((opOf choice num_bits).decodeIters (itOf choice num_bits)
                    (fresh ++ encoded.drop esz)).length =
                    itOf choice num_bits * (opOf choice num_bits).byte_value_count :=
                  length_decodeIters _ _ _
                rw [not_or] at hguard
                unfold BulkOp.decode_byte_to_int
                constructor
                · rw [drop_append_ge _ _ _ (by rw [hvlen]; omega), hvlen,
                    List.drop_drop,
                    show itOf choice num_bits * (opOf choice num_bits).byte_value_count +
                        (max_data_size -
                          itOf choice num_bits * (opOf choice num_bits).byte_value_count) =
                        max_data_size from by omega]
                · rw [List.length_append, hvlen, List.length_drop]
                  omega
            · cases h

theorem skipN_input_eq (choice : Nat → FormatAndBits) (i : Nat) (s : ByteStream) :
    skipN (inputTable choice) i s = skipN (outputTable choice) i s := by
  induction i generalizing s with
  | zero => rfl
  | succ i ih =>
    simp only [skipN, skip_block_input_eq, ih]

theorem readBlocksSeq_input_eq (choice : Nat → FormatAndBits) (n : Nat) (s : ByteStream)
    (encoded decoded : List Nat) :
    readBlocksSeq (inputTable choice) n s encoded decoded =
      readBlocksSeq (outputTable choice) n s encoded decoded := by
  induction n generalizing s encoded decoded with
  | zero => rfl
  | succ n ih =>
    simp only [readBlocksSeq, read_block_input_eq, ih]

theorem compactChoice_valid : ValidChoice compactChoice := by
  intro bpv h33 h1
  refine ⟨?_, Nat.le_refl _, show bpv ≤ 32 by omega⟩
  simp only [compactChoice, Format.is_supported, Bool.and_eq_true, decide_eq_true_eq]
  omega

/-! ### Claim theorems -/

/-- C2: building a Format Table for output (`with_output`), persisting its header,
then building a Format Table for input (`with_input`) from that exact header byte
sequence, yields two tables whose `encoded_sizes` and `iterations` arrays are
identical for all 32 bits-per-value slots 1..32 (the arrays are equal outright,
slot 0 being the unused 0 entry on both sides). -/
theorem header_roundtrip (choice : Nat → FormatAndBits) (hc : ValidChoice choice)
    (rest : List Nat) (TW : ForUtilInstance) (hdr : List Nat)
    (hW : ForUtilInstance.with_output choice [] = .ok (TW, hdr))
    (TR : ForUtilInstance) (sR : ByteStream)
    (hR : ForUtilInstance.with_input ⟨hdr ++ rest, 0⟩ = .ok (TR, sR)) :
    TR.encoded_sizes = TW.encoded_sizes ∧ TR.iterations = TW.iterations := by
  have hspec := with_output_spec choice hc []
  rw [hW] at hspec
  simp only [Except.ok.injEq, Prod.mk.injEq, List.nil_append] at hspec
  obtain ⟨hTW, hhdr⟩ := hspec
  subst hTW
  subst hhdr
  have hinp := with_input_spec choice hc ⟨headerBytes choice ++ rest, 0⟩ rest (by simp)
  rw [hR] at hinp
  simp only [Except.ok.injEq, Prod.mk.injEq] at hinp
  obtain ⟨hTR, _⟩ := hinp
  subst hTR
  exact ⟨rfl, rfl⟩

/-- C2 witness: the round trip evaluated with the compact verdict function. -/
theorem header_roundtrip_witness :
    (inputTable compactChoice).encoded_sizes = (outputTable compactChoice).encoded_sizes ∧
    (inputTable compactChoice).iterations = (outputTable compactChoice).iterations :=
  header_roundtrip compactChoice compactChoice_valid [] (outputTable compactChoice)
    (headerBytes compactChoice) (with_output_spec compactChoice compactChoice_valid [])
    (inputTable compactChoice)
    ⟨headerBytes compactChoice ++ [], 0 + (headerBytes compactChoice).length⟩
    (with_input_spec compactChoice compactChoice_valid ⟨headerBytes compactChoice ++ [], 0⟩ []
      (by simp))

/-- C3: for a block in which all `BLOCK_SIZE` values equal some `v`, `write_block`
emits exactly one marker byte 0 followed by the variable-length encoding of `v` and
nothing else, regardless of how large `v` is (up to 32 bits); and `read_block` of
that encoding writes `v` into decoded positions `0..BLOCK_SIZE` while leaving every
position at index at least `BLOCK_SIZE` unchanged. -/
theorem all_equal_block_shortcut (fu : ForUtilInstance) (v : Nat) (hv : v < 2 ^ 32)
    (pad scratchW out scratchR decoded : List Nat) (rest : List Nat)
    (hdec : BLOCK_SIZE ≤ decoded.length) :
    ForUtil.write_block fu (List.replicate BLOCK_SIZE v ++ pad) scratchW out
      = .ok (scratchW, out ++ 0 :: vintBytes v) ∧
    (∀ s : ByteStream, s.data.drop s.pos = (0 :: vintBytes v) ++ rest →
      fu.read_block s scratchR decoded
        = .ok (⟨s.data, s.pos + (0 :: vintBytes v).length⟩, scratchR,
            List.replicate BLOCK_SIZE v ++ decoded.drop BLOCK_SIZE)) := by
  constructor
  · exact write_block_all_equal fu v pad scratchW out
  · intro s hs
    exact read_block_all_equal fu v scratchR decoded hdec s rest hs

/-- C3 witness: the all-equal shortcut evaluated at the largest 32-bit value. -/
theorem all_equal_block_shortcut_witness :
    ForUtil.write_block (outputTable compactChoice)
        (List.replicate BLOCK_SIZE (2 ^ 32 - 1) ++ []) (List.replicate MAX_ENCODED_SIZE 0) []
      = .ok (List.replicate MAX_ENCODED_SIZE 0, [] ++ 0 :: vintBytes (2 ^ 32 - 1)) ∧
    (∀ s : ByteStream, s.data.drop s.pos = (0 :: vintBytes (2 ^ 32 - 1)) ++ [] →
      (outputTable compactChoice).read_block s (List.replicate MAX_ENCODED_SIZE 0)
          (List.replicate max_data_size 0)
        = .ok (⟨s.data, s.pos + (0 :: vintBytes (2 ^ 32 - 1)).length⟩,
            List.replicate MAX_ENCODED_SIZE 0,
            List.replicate BLOCK_SIZE (2 ^ 32 - 1) ++
              (List.replicate max_data_size 0).drop BLOCK_SIZE)) :=
  all_equal_block_shortcut (outputTable compactChoice) (2 ^ 32 - 1) (by decide) []
    (List.replicate MAX_ENCODED_SIZE 0) [] (List.replicate MAX_ENCODED_SIZE 0)
    (List.replicate max_data_size 0) [] (by decide)

/-- C4: for every non-constant block of `BLOCK_SIZE` non-negative signed-32-bit
values, the bits-per-value chosen by `write_block` (computed by `bits_required` as
the bit length of the bitwise-OR reduction of the block) is the smallest `k` in
[1,32] such that every value in the block fits in `k` bits, and the OR-reduction's
bit length equals the bit length of the block's maximum value. -/
theorem bits_required_minimal (values : List Nat) (hlen : values.length = BLOCK_SIZE)
    (hv : ∀ v ∈ values, v < 2 ^ 31) (hne : ForUtil.is_all_equal values = false) :
    1 ≤ ForUtil.bits_required values ∧ ForUtil.bits_required values ≤ 32 ∧
    (∀ v ∈ values, v < 2 ^ ForUtil.bits_required values) ∧
    (∀ k, 1 ≤ k → k < ForUtil.bits_required values → ¬ ∀ v ∈ values, v < 2 ^ k) ∧
    ForUtil.bits_required values =
      unsigned_bits_required (i32_to_i64 (values.foldl max 0)) := by
  have hpos := exists_pos_of_not_all_equal values hlen hne
  obtain ⟨h1, h2, h3, h4, h5⟩ := bits_required_spec values hlen hv hpos
  exact ⟨h1, by omega, h3, fun k _ hk => h4 k hk, h5⟩

/-- C4 witness: the minimal width of the block 0,1,...,127 is 7. -/
theorem bits_required_minimal_witness :
    1 ≤ ForUtil.bits_required (List.range 128) ∧
    ForUtil.bits_required (List.range 128) ≤ 32 ∧
    (∀ v ∈ List.range 128, v < 2 ^ ForUtil.bits_required (List.range 128)) ∧
    (∀ k, 1 ≤ k → k < ForUtil.bits_required (List.range 128) →
      ¬ ∀ v ∈ List.range 128, v < 2 ^ k) ∧
    ForUtil.bits_required (List.range 128) =
      unsigned_bits_required (i32_to_i64 ((List.range 128).foldl max 0)) :=
  bits_required_minimal (List.range 128) (by decide) (by decide) (by decide)

/-- C5: for every family id in {0,1} (both format families) and every bits-per-value
in [1,32], the header code written by `with_output`, computed as
`family_id <<< 5 ||| (bits_per_value - 1)`, is exactly inverted by `with_input`'s
decoding `code >>> 5` and `(code &&& 31) + 1`: the reader recovers precisely the
(family, bits-per-value) pair the writer persisted. -/
theorem header_code_inverse (f : Format) (bits_per_value : Nat)
    (h1 : 1 ≤ bits_per_value) (h2 : bits_per_value ≤ 32) :
    (f.get_id <<< 5 ||| (bits_per_value - 1)) >>> 5 = f.get_id ∧
    ((f.get_id <<< 5 ||| (bits_per_value - 1)) &&& 31) + 1 = bits_per_value ∧
    Format.with_id ((f.get_id <<< 5 ||| (bits_per_value - 1)) >>> 5) = .ok f := by
  have h := code_split f bits_per_value h1 h2
  refine ⟨h.1, h.2, ?_⟩
  rw [h.1]
  exact with_id_get_id f

/-- C5 witness: the code inversion evaluated at (PackedSingleBlock, 32). -/
theorem header_code_inverse_witness :
    (Format.packedSingleBlock.get_id <<< 5 ||| (32 - 1)) >>> 5 =
      Format.packedSingleBlock.get_id ∧
    ((Format.packedSingleBlock.get_id <<< 5 ||| (32 - 1)) &&& 31) + 1 = 32 ∧
    Format.with_id ((Format.packedSingleBlock.get_id <<< 5 ||| (32 - 1)) >>> 5) =
      .ok Format.packedSingleBlock :=
  header_code_inverse Format.packedSingleBlock 32 (by decide) (by decide)

/-- Any header whose first format code carries a family id of 2 or more makes
`with_input` hit the modelled `Format::with_id` panic. -/
theorem with_input_bad_id_panics (version code : Nat) (rest : List Nat)
    (hver : version ≤ VERSION_CURRENT) (hid : 2 ≤ code >>> 5) :
    ForUtilInstance.with_input ⟨vintBytes version ++ (vintBytes code ++ rest), 0⟩
      = .error Err.invariantViolation := by
  have hs0 : (ByteStream.mk (vintBytes version ++ (vintBytes code ++ rest)) 0).data.drop
      (ByteStream.mk (vintBytes version ++ (vintBytes code ++ rest)) 0).pos =
      vintBytes version ++ (vintBytes code ++ rest) := by
    simp
  unfold ForUtilInstance.with_input
  rw [read_vint_at _ version (vintBytes code ++ rest) hs0]
  have hcv : check_version version = .ok () := by
    unfold check_version
    rw [if_pos ⟨by have h0 : VERSION_START = 0 := rfl; omega, hver⟩]
  simp only [hcv]
  have h32 : List.range' 1 32 = 1 :: List.range' 2 31 := List.range'_succ 1 31 1
  rw [h32]
  have hs1 : (ByteStream.mk (vintBytes version ++ (vintBytes code ++ rest))
      (0 + (vintBytes version).length)).data.drop
      (ByteStream.mk (vintBytes version ++ (vintBytes code ++ rest))
        (0 + (vintBytes version).length)).pos = vintBytes code ++ rest := by
    exact drop_at_advance ⟨vintBytes version ++ (vintBytes code ++ rest), 0⟩
      (vintBytes version) (vintBytes code ++ rest) hs0
  have hwid : Format.with_id (code >>> 5) = .error Err.invariantViolation := by
    unfold Format.with_id
    rw [if_neg (by omega), if_neg (by omega)]
  simp only [withInputLoop.eq_2, read_vint_at _ code rest hs1, hwid]

/-- C9 counterexample: the claim as stated fails — on the concrete header with
version 2 and first format code 96 (family id 3), table construction does not
return the recoverable `UnknownFormat` error to the caller: the unknown id can
only make `Format::with_id` panic (modelled as `invariantViolation`), because
the call site at util.rs:85 consumes its result as a bare `Format` with no
error propagation. -/
theorem with_input_unknown_format_counterexample :
    ForUtilInstance.with_input ⟨vintBytes 2 ++ (vintBytes 96 ++ [9]), 0⟩
        ≠ .error Err.unknownFormat ∧
      ForUtilInstance.with_input ⟨vintBytes 2 ++ (vintBytes 96 ++ [9]), 0⟩
        = .error Err.invariantViolation := by
  have h := with_input_bad_id_panics 2 96 [9] (by decide) (by decide)
  exact ⟨by rw [h]; simp, h⟩

/-- C9 (corrected: the unknown family id makes table construction panic — a
process abort — rather than return a recoverable error): when `with_input`
reads a header whose format code carries a family id that is not one of
{Packed, PackedSingleBlock} (id at least 2), `Format::with_id` panics, modelled
as `invariantViolation`, and no recoverable `UnknownFormat` error is returned
to the caller. -/
theorem with_input_unknown_format (version code : Nat) (rest : List Nat)
    (hver : version ≤ VERSION_CURRENT) (hid : 2 ≤ code >>> 5) :
    ForUtilInstance.with_input ⟨vintBytes version ++ (vintBytes code ++ rest), 0⟩
        = .error Err.invariantViolation ∧
      ForUtilInstance.with_input ⟨vintBytes version ++ (vintBytes code ++ rest), 0⟩
        ≠ .error Err.unknownFormat := by
  have h := with_input_bad_id_panics version code rest hver hid
  exact ⟨h, by rw [h]; simp⟩

/-- C9 witness: a header with version 2 and first format code 64 (family id 2)
panics and in particular yields no recoverable UnknownFormat error. -/
theorem with_input_unknown_format_witness :
    ForUtilInstance.with_input ⟨vintBytes 2 ++ (vintBytes 64 ++ [7]), 0⟩
        = .error Err.invariantViolation ∧
      ForUtilInstance.with_input ⟨vintBytes 2 ++ (vintBytes 64 ++ [7]), 0⟩
        ≠ .error Err.unknownFormat :=
  with_input_unknown_format 2 64 [7] (by decide) (by decide)

/-- C10: a Format Table constructed by `with_input` (the read path) has an empty
encoders vector; calling `write_block` on such a table with any non-constant block
indexes into the empty encoders vector and panics (modelled as the
`invariantViolation` outcome), while the all-equal shortcut path of `write_block`
still succeeds on a read-constructed table. -/
theorem input_table_write_panics (choice : Nat → FormatAndBits) (hc : ValidChoice choice)
    (s : ByteStream) (rest : List Nat)
    (hs : s.data.drop s.pos = headerBytes choice ++ rest)
    (T : ForUtilInstance) (sR : ByteStream)
    (hR : ForUtilInstance.with_input s = .ok (T, sR)) :
    T.encoders = [] ∧
    (∀ values pad scratch out, values.length = BLOCK_SIZE →
      (∀ v ∈ values, v < 2 ^ 31) → ForUtil.is_all_equal values = false →
      ForUtil.write_block T (values ++ pad) scratch out = .error Err.invariantViolation) ∧
    (∀ v pad scratch out,
      ForUtil.write_block T (List.replicate BLOCK_SIZE v ++ pad) scratch out
        = .ok (scratch, out ++ 0 :: vintBytes v)) := by
  have hinp := with_input_spec choice hc s rest hs
  rw [hR] at hinp
  simp only [Except.ok.injEq, Prod.mk.injEq] at hinp
  obtain ⟨hT, _⟩ := hinp
  subst hT
  refine ⟨rfl, ?_, ?_⟩
  · intro values pad scratch out hlen hv heqf
    have hne : values ≠ [] := by
      intro hnil
      rw [hnil] at hlen
      simp [BLOCK_SIZE] at hlen
    have hempty : (values ++ pad).isEmpty = false := by
      cases values with
      | nil => exact absurd rfl hne
      | cons v vr => rfl
    have hpos := exists_pos_of_not_all_equal values hlen heqf
    obtain ⟨hnb1, hnb31, hnbv, hnbmin, hnbmax⟩ := bits_required_spec values hlen hv hpos
    set nb := ForUtil.bits_required values with hnbdef
    unfold ForUtil.write_block
    rw [hempty]
    simp only [Bool.false_eq_true, if_false]
    rw [is_all_equal_append values pad hlen, heqf]
    simp only [Bool.false_eq_true, if_false]
    rw [bits_required_append values pad hlen, ← hnbdef]
    rw [if_neg (not_not_intro ⟨by omega, by omega⟩)]
    have hit : (inputTable choice).iterations[nb]? = some (itOf choice nb) :=
      outputTable_iterations_lookup choice nb hnb1 (by omega)
    have henc : (inputTable choice).encoders[nb]? = (none : Option BulkOp) := rfl
    simp only [hit, henc]
  · intro v pad scratch out
    exact write_block_all_equal (inputTable choice) v pad scratch out

/-- C10 witness: the read-constructed table of the compact header rejects the
non-constant block 0,1,...,127 and accepts the constant block of fives. -/
theorem input_table_write_panics_witness :
    (inputTable compactChoice).encoders = [] ∧
    (∀ values pad scratch out, values.length = BLOCK_SIZE →
      (∀ v ∈ values, v < 2 ^ 31) → ForUtil.is_all_equal values = false →
      ForUtil.write_block (inputTable compactChoice) (values ++ pad) scratch out
        = .error Err.invariantViolation) ∧
    (∀ v pad scratch out,
      ForUtil.write_block (inputTable compactChoice)
          (List.replicate BLOCK_SIZE v ++ pad) scratch out
        = .ok (scratch, out ++ 0 :: vintBytes v)) :=
  input_table_write_panics compactChoice compactChoice_valid ⟨headerBytes compactChoice, 0⟩ []
    (by simp) (inputTable compactChoice)
    ⟨headerBytes compactChoice, 0 + (headerBytes compactChoice).length⟩
    (with_input_spec compactChoice compactChoice_valid ⟨headerBytes compactChoice, 0⟩ []
      (by simp))

/-- C1 counterexample: the claim as stated fails for a block of "non-negative
integers each < 2^32".  The values of a block are `i32`; a value in
[2^31, 2^32) is a negative `i32`, the bitwise-OR of the block sign-extends
(`or as i64`) to a 64-bit pattern whose bit length 64 fails the release-mode
assert `num_bits > 0 && num_bits <= 32`, so `write_block` panics instead of
producing a decodable encoding.  Shown here at the concrete non-constant block
2^31, 1, 0, ..., 0. -/
theorem write_read_roundtrip_counterexample :
    ForUtil.write_block (outputTable compactChoice)
        ((2 ^ 31 :: 1 :: List.replicate 126 0) ++
          List.replicate (max_data_size - BLOCK_SIZE) 0)
        (List.replicate MAX_ENCODED_SIZE 0) []
      = .error Err.invariantViolation := by decide

/-- C1 (amended: each value below 2^31, i.e. non-negative as the signed 32-bit
integers the code stores): for any block of `BLOCK_SIZE` such values, encoding the
block with `write_block` and then decoding the produced bytes with `read_block` —
using the Format Table built for output and equally the table built by `with_input`
from the persisted header — yields the original values at positions
[0, BLOCK_SIZE), for every supported protocol version (the writer always persists
`VERSION_CURRENT`) and every achievable overhead ratio (every valid catalog
verdict function). -/
theorem write_read_roundtrip (choice : Nat → FormatAndBits) (hc : ValidChoice choice)
    (values : List Nat) (hlen : values.length = BLOCK_SIZE)
    (hv : ∀ v ∈ values, v < 2 ^ 31)
    (TW : ForUtilInstance) (hdr : List Nat)
    (hW : ForUtilInstance.with_output choice [] = .ok (TW, hdr))
    (scratchW scratchR decoded out rest : List Nat)
    (hsw : MAX_ENCODED_SIZE ≤ scratchW.length) (hsr : MAX_ENCODED_SIZE ≤ scratchR.length)
    (hdl : max_data_size ≤ decoded.length) :
    ∃ scrW blockB,
      ForUtil.write_block TW (values ++ List.replicate (max_data_size - BLOCK_SIZE) 0)
        scratchW out = .ok (scrW, out ++ blockB) ∧
      (∀ s : ByteStream, s.data.drop s.pos = blockB ++ rest →
        ∃ s' scrR dec, TW.read_block s scratchR decoded = .ok (s', scrR, dec) ∧
          dec.take BLOCK_SIZE = values ∧ s'.pos = s.pos + blockB.length) ∧
      (∀ TR sR, ForUtilInstance.with_input ⟨hdr, 0⟩ = .ok (TR, sR) →
        ∀ s : ByteStream, s.data.drop s.pos = blockB ++ rest →
          ∃ s' scrR dec, TR.read_block s scratchR decoded = .ok (s', scrR, dec) ∧
            dec.take BLOCK_SIZE = values ∧ s'.pos = s.pos + blockB.length) := by
  have hspec := with_output_spec choice hc []
  rw [hW] at hspec
  simp only [Except.ok.injEq, Prod.mk.injEq, List.nil_append] at hspec
  obtain ⟨hTW, hhdr⟩ := hspec
  subst hTW
  subst hhdr
  obtain ⟨scrW, hwrite, hscrlen⟩ := write_block_spec choice hc values hlen hv scratchW out hsw
  refine ⟨scrW, blockBytesOf choice values, hwrite, ?_, ?_⟩
  · intro s hs
    obtain ⟨scrR, dec, hread, htake, _, _⟩ :=
      read_block_at choice hc values hlen hv s rest hs scratchR decoded hsr hdl
    exact ⟨_, scrR, dec, hread, htake, rfl⟩
  · intro TR sR hR s hs
    have hinp := with_input_spec choice hc ⟨headerBytes choice, 0⟩ []
      (by simp)
    rw [hR] at hinp
    simp only [Except.ok.injEq, Prod.mk.injEq] at hinp
    obtain ⟨hTR, _⟩ := hinp
    subst hTR
    rw [read_block_input_eq]
    obtain ⟨scrR, dec, hread, htake, _, _⟩ :=
      read_block_at choice hc values hlen hv s rest hs scratchR decoded hsr hdl
    exact ⟨_, scrR, dec, hread, htake, rfl⟩

/-- C1 witness: the amended round trip evaluated at the block 0,1,...,127 with the
compact verdict function. -/
theorem write_read_roundtrip_witness :
    ∃ scrW blockB,
      ForUtil.write_block (outputTable compactChoice)
        (List.range 128 ++ List.replicate (max_data_size - BLOCK_SIZE) 0)
        (List.replicate MAX_ENCODED_SIZE 0) [] = .ok (scrW, [] ++ blockB) ∧
      (∀ s : ByteStream, s.data.drop s.pos = blockB ++ [9] →
        ∃ s' scrR dec, (outputTable compactChoice).read_block s
            (List.replicate MAX_ENCODED_SIZE 0) (List.replicate max_data_size 0)
            = .ok (s', scrR, dec) ∧
          dec.take BLOCK_SIZE = List.range 128 ∧ s'.pos = s.pos + blockB.length) ∧
      (∀ TR sR, ForUtilInstance.with_input ⟨headerBytes compactChoice, 0⟩
          = .ok (TR, sR) →
        ∀ s : ByteStream, s.data.drop s.pos = blockB ++ [9] →
          ∃ s' scrR dec, TR.read_block s (List.replicate MAX_ENCODED_SIZE 0)
              (List.replicate max_data_size 0) = .ok (s', scrR, dec) ∧
            dec.take BLOCK_SIZE = List.range 128 ∧ s'.pos = s.pos + blockB.length) :=
  write_read_roundtrip compactChoice compactChoice_valid (List.range 128) (by decide)
    (by decide) (outputTable compactChoice) (headerBytes compactChoice)
    (with_output_spec compactChoice compactChoice_valid [])
    (List.replicate MAX_ENCODED_SIZE 0) (List.replicate MAX_ENCODED_SIZE 0)
    (List.replicate max_data_size 0) [] [9] (by decide) (by decide) (by decide)

/-- C6: for every supported protocol version, both format families, and every
bits-per-value in [1,32], the product `iterations * byte_value_count` computed for
that combination is at most `max_data_size`; and no `read_block` call on a table
reconstructed by `with_input` (equivalently, built by `with_output`) writes at or
past index `max_data_size` of the decoded buffer: every position from
`max_data_size` on is left unchanged, and the buffer keeps its length. -/
theorem capacity_bound_sound (version bpv : Nat) (f : Format)
    (choice : Nat → FormatAndBits) (hver : version ≤ VERSION_CURRENT)
    (h1 : 1 ≤ bpv) (h2 : bpv ≤ 32) (hc : ValidChoice choice)
    (s : ByteStream) (encoded decoded : List Nat) :
    (get_decoder f version bpv = .ok ⟨f, bpv⟩ ∧
      compute_iterations ⟨f, bpv⟩ * BulkOp.byte_value_count ⟨f, bpv⟩ ≤ max_data_size) ∧
    (∀ s' scr dec,
      ForUtilInstance.read_block (inputTable choice) s encoded decoded
          = .ok (s', scr, dec) →
      dec.drop max_data_size = decoded.drop max_data_size ∧
      dec.length = decoded.length) := by
  constructor
  · exact ⟨get_decoder_ok f version bpv hver h1 h2, (slotFacts_of f bpv h1 h2).2.2.1⟩
  · intro s' scr dec h
    rw [read_block_input_eq] at h
    exact read_block_bound choice hc s encoded decoded s' scr dec h

/-- C6 witness: the capacity bound evaluated at version 0, PackedSingleBlock,
bits-per-value 3 (the combination attaining the maximum). -/
theorem capacity_bound_sound_witness :
    (get_decoder Format.packedSingleBlock 0 3 = .ok ⟨Format.packedSingleBlock, 3⟩ ∧
      compute_iterations ⟨Format.packedSingleBlock, 3⟩ *
        BulkOp.byte_value_count ⟨Format.packedSingleBlock, 3⟩ ≤ max_data_size) ∧
    (∀ s' scr dec,
      ForUtilInstance.read_block (inputTable compactChoice) ⟨[0, 5], 0⟩
          (List.replicate MAX_ENCODED_SIZE 0) (List.replicate max_data_size 0)
          = .ok (s', scr, dec) →
      dec.drop max_data_size = (List.replicate max_data_size 0).drop max_data_size ∧
      dec.length = (List.replicate max_data_size 0).length) :=
  capacity_bound_sound 0 3 Format.packedSingleBlock compactChoice (by decide)
    (by decide) (by decide) compactChoice_valid ⟨[0, 5], 0⟩
    (List.replicate MAX_ENCODED_SIZE 0) (List.replicate max_data_size 0)

/-- C7: for every Format Table — built by `with_output` or reconstructed by
`with_input` from its header — and every bits-per-value in [1,32], the slot's
iteration count times the decoder's values-per-iteration (`byte_value_count`) is at
least `BLOCK_SIZE`, and times the encoder's bytes-per-iteration
(`byte_block_count`) is at least the slot's encoded size. -/
theorem table_iteration_invariants (choice : Nat → FormatAndBits)
    (hc : ValidChoice choice) (TW : ForUtilInstance) (hdr : List Nat)
    (hW : ForUtilInstance.with_output choice [] = .ok (TW, hdr))
    (TR : ForUtilInstance) (sR : ByteStream) (rest : List Nat)
    (hR : ForUtilInstance.with_input ⟨hdr ++ rest, 0⟩ = .ok (TR, sR))
    (bpv : Nat) (h1 : 1 ≤ bpv) (h2 : bpv ≤ 32) :
    ∃ it dec enc esz,
      TW.iterations[bpv]? = some it ∧ TR.iterations[bpv]? = some it ∧
      TW.decoders[bpv]? = some dec ∧ TR.decoders[bpv]? = some dec ∧
      TW.encoders[bpv]? = some enc ∧
      TW.encoded_sizes[bpv]? = some esz ∧ TR.encoded_sizes[bpv]? = some esz ∧
      BLOCK_SIZE ≤ it * dec.byte_value_count ∧ esz ≤ it * enc.byte_block_count := by
  have hspec := with_output_spec choice hc []
  rw [hW] at hspec
  simp only [Except.ok.injEq, Prod.mk.injEq, List.nil_append] at hspec
  obtain ⟨hTW, hhdr⟩ := hspec
  subst hTW
  subst hhdr
  have hinp := with_input_spec choice hc ⟨headerBytes choice ++ rest, 0⟩ rest (by simp)
  rw [hR] at hinp
  simp only [Except.ok.injEq, Prod.mk.injEq] at hinp
  obtain ⟨hTR, _⟩ := hinp
  subst hTR
  obtain ⟨hsupp, hble, hbits32⟩ := hc bpv (by omega) h1
  have hbits1 : 1 ≤ (choice bpv).bits_per_value := by omega
  have hfacts := slotFacts_of (choice bpv).format (choice bpv).bits_per_value hbits1 hbits32
  refine ⟨itOf choice bpv, opOf choice bpv, opOf choice bpv, szOf choice bpv,
    outputTable_iterations_lookup choice bpv h1 h2,
    outputTable_iterations_lookup choice bpv h1 h2,
    outputTable_decoders_lookup choice bpv h1 h2,
    outputTable_decoders_lookup choice bpv h1 h2,
    outputTable_encoders_lookup choice bpv h1 h2,
    outputTable_sizes_lookup choice bpv h1 h2,
    outputTable_sizes_lookup choice bpv h1 h2,
    hfacts.2.1, le_of_eq hfacts.1.symm⟩

/-- C7 witness: the iteration invariants evaluated at slot 32 of the compact
tables. -/
theorem table_iteration_invariants_witness :
    ∃ it dec enc esz,
      (outputTable compactChoice).iterations[32]? = some it ∧
      (inputTable compactChoice).iterations[32]? = some it ∧
      (outputTable compactChoice).decoders[32]? = some dec ∧
      (inputTable compactChoice).decoders[32]? = some dec ∧
      (outputTable compactChoice).encoders[32]? = some enc ∧
      (outputTable compactChoice).encoded_sizes[32]? = some esz ∧
      (inputTable compactChoice).encoded_sizes[32]? = some esz ∧
      BLOCK_SIZE ≤ it * dec.byte_value_count ∧ esz ≤ it * enc.byte_block_count :=
  table_iteration_invariants compactChoice compactChoice_valid
    (outputTable compactChoice) (headerBytes compactChoice)
    (with_output_spec compactChoice compactChoice_valid [])
    (inputTable compactChoice)
    ⟨headerBytes compactChoice ++ [], 0 + (headerBytes compactChoice).length⟩ []
    (with_input_spec compactChoice compactChoice_valid
      ⟨headerBytes compactChoice ++ [], 0⟩ [] (by simp))
    32 (by decide) (by decide)

/-- C8: `skip_block` advances the stream to exactly the first byte after a block
(after `i` skips over a sequence of encoded blocks the position is exactly the
total length of the skipped blocks' wire bytes); consequently, decoding block `i`
after skipping blocks `0..i` produces the same values as decoding all blocks
sequentially and taking the `i`-th result (both equal the `i`-th original
block). -/
theorem skip_block_equivalence (choice : Nat → FormatAndBits) (hc : ValidChoice choice)
    (blocks : List (List Nat))
    (hall : ∀ blk ∈ blocks, blk.length = BLOCK_SIZE ∧ ∀ v ∈ blk, v < 2 ^ 31)
    (post scratch decoded : List Nat)
    (hsc : MAX_ENCODED_SIZE ≤ scratch.length) (hdc : max_data_size ≤ decoded.length)
    (i : Nat) (hi : i < blocks.length) :
    (∀ blk (s : ByteStream) rest, blk.length = BLOCK_SIZE → (∀ v ∈ blk, v < 2 ^ 31) →
      s.data.drop s.pos = blockBytesOf choice blk ++ rest →
      (inputTable choice).skip_block s
        = .ok ⟨s.data, s.pos + (blockBytesOf choice blk).length⟩) ∧
    ∃ s₁ s₂ scr dec lst s₃ enc2 dec2,
      skipN (inputTable choice) i
          ⟨(blocks.flatMap fun b => blockBytesOf choice b) ++ post, 0⟩ = .ok s₁ ∧
      s₁.pos = ((blocks.take i).flatMap fun b => blockBytesOf choice b).length ∧
      (inputTable choice).read_block s₁ scratch decoded = .ok (s₂, scr, dec) ∧
      readBlocksSeq (inputTable choice) blocks.length
          ⟨(blocks.flatMap fun b => blockBytesOf choice b) ++ post, 0⟩ scratch decoded
        = .ok (lst, s₃, enc2, dec2) ∧
      (lst.drop i).head? = some (dec.take BLOCK_SIZE) ∧
      blocks[i]? = some (dec.take BLOCK_SIZE) := by
  constructor
  · intro blk s rest hblen hbv hs
    rw [skip_block_input_eq]
    exact skip_block_at choice hc blk hblen hbv s rest hs
  · have hsplitBytes : (blocks.flatMap fun b => blockBytesOf choice b) =
        ((blocks.take i).flatMap fun b => blockBytesOf choice b) ++
        ((blocks.drop i).flatMap fun b => blockBytesOf choice b) := by
      rw [← List.flatMap_append, List.take_append_drop]
    have hdropC : blocks.drop i = blocks[i] :: blocks.drop (i + 1) :=
      List.drop_eq_getElem_cons hi
    have hmemi : blocks[i] ∈ blocks := List.getElem_mem hi
    obtain ⟨hblen, hbv⟩ := hall blocks[i] hmemi
    have hskip := skipN_spec choice hc i blocks hall
      ⟨(blocks.flatMap fun b => blockBytesOf choice b) ++ post, 0⟩ post (by simp)
      (le_of_lt hi)
    rw [← skipN_input_eq] at hskip
    have hsuffix : ((ByteStream.mk
        ((blocks.flatMap fun b => blockBytesOf choice b) ++ post)
        (0 + ((blocks.take i).flatMap fun b => blockBytesOf choice b).length)).data.drop
        (ByteStream.mk ((blocks.flatMap fun b => blockBytesOf choice b) ++ post)
          (0 + ((blocks.take i).flatMap fun b => blockBytesOf choice b).length)).pos) =
        blockBytesOf choice blocks[i] ++
          (((blocks.drop (i + 1)).flatMap fun b => blockBytesOf choice b) ++ post) := by
      simp only [Nat.zero_add]
      rw [hsplitBytes, List.append_assoc, List.drop_left]
      rw [hdropC, List.flatMap_cons, List.append_assoc]
    obtain ⟨scr, dec, hread, htake, _, _⟩ := read_block_at choice hc blocks[i] hblen hbv
      ⟨(blocks.flatMap fun b => blockBytesOf choice b) ++ post,
        0 + ((blocks.take i).flatMap fun b => blockBytesOf choice b).length⟩
      (((blocks.drop (i + 1)).flatMap fun b => blockBytesOf choice b) ++ post)
      hsuffix scratch decoded hsc hdc
    obtain ⟨enc2, dec2, hseq⟩ := readBlocksSeq_spec choice hc blocks hall
      ⟨(blocks.flatMap fun b => blockBytesOf choice b) ++ post, 0⟩ post (by simp)
      scratch decoded hsc hdc
    rw [← readBlocksSeq_input_eq] at hseq
    refine ⟨⟨(blocks.flatMap fun b => blockBytesOf choice b) ++ post,
        0 + ((blocks.take i).flatMap fun b => blockBytesOf choice b).length⟩,
      ⟨(blocks.flatMap fun b => blockBytesOf choice b) ++ post,
        0 + ((blocks.take i).flatMap fun b => blockBytesOf choice b).length +
          (blockBytesOf choice blocks[i]).length⟩,
      scr, dec, blocks,
      ⟨(blocks.flatMap fun b => blockBytesOf choice b) ++ post,
        0 + (blocks.flatMap fun b => blockBytesOf choice b).length⟩,
      enc2, dec2, hskip, by simp, ?_, hseq, ?_, ?_⟩
    · rw [read_block_input_eq]
      exact hread
    · rw [hdropC]
      simp [htake]
    · rw [htake]
      exact List.getElem?_eq_getElem hi

/-- C8 witness: skip-then-read equals sequential decoding on a concrete two-block
sequence (a constant block of fives, then the block 0,1,...,127), at i = 1. -/
theorem skip_block_equivalence_witness :
    (∀ blk (s : ByteStream) rest, blk.length = BLOCK_SIZE → (∀ v ∈ blk, v < 2 ^ 31) →
      s.data.drop s.pos = blockBytesOf compactChoice blk ++ rest →
      (inputTable compactChoice).skip_block s
        = .ok ⟨s.data, s.pos + (blockBytesOf compactChoice blk).length⟩) ∧
    ∃ s₁ s₂ scr dec lst s₃ enc2 dec2,
      skipN (inputTable compactChoice) 1
          ⟨([List.replicate BLOCK_SIZE 5, List.range 128].flatMap
              fun b => blockBytesOf compactChoice b) ++ [7], 0⟩ = .ok s₁ ∧
      s₁.pos = (([List.replicate BLOCK_SIZE 5, List.range 128].take 1).flatMap
          fun b => blockBytesOf compactChoice b).length ∧
      (inputTable compactChoice).read_block s₁ (List.replicate MAX_ENCODED_SIZE 0)
          (List.replicate max_data_size 0) = .ok (s₂, scr, dec) ∧
      readBlocksSeq (inputTable compactChoice)
          [List.replicate BLOCK_SIZE 5, List.range 128].length
          ⟨([List.replicate BLOCK_SIZE 5, List.range 128].flatMap
              fun b => blockBytesOf compactChoice b) ++ [7], 0⟩
          (List.replicate MAX_ENCODED_SIZE 0) (List.replicate max_data_size 0)
        = .ok (lst, s₃, enc2, dec2) ∧
      (lst.drop 1).head? = some (dec.take BLOCK_SIZE) ∧
      [List.replicate BLOCK_SIZE 5, List.range 128][1]? = some (dec.take BLOCK_SIZE) :=
  skip_block_equivalence compactChoice compactChoice_valid
    [List.replicate BLOCK_SIZE 5, List.range 128] (by decide) [7]
    (List.replicate MAX_ENCODED_SIZE 0) (List.replicate max_data_size 0)
    (by decide) (by decide) 1 (by decide)

end Rucene
